import Mathlib

/-!
Verification development for the worldweaver procedural terrain engine
(src-tauri/src/terrain).  The Rust source is shallowly embedded:

* f32 height samples are modeled in two ways, matching what each claim is
  about.  Claims about raw bit patterns (the XOR undo stack, persisted
  blobs) use the 32-bit pattern itself, a natural number below 2^32.
  Claims about numeric behaviour (brushes, hydrology) use exact rational
  arithmetic standing in for f32 arithmetic; the properties proved
  (ordering, clamping, conservation) are the ones that do not depend on
  rounding.
* zstd compression (an external library) is abstracted as an
  encode/decode pair; theorems that need it take the lossless round-trip
  contract as a hypothesis.
* The Gaussian falloff (f32 expf, transcendental) is abstracted as a
  function parameter; theorems take as hypotheses only facts that the
  real falloff satisfies exactly, e.g. expf(0) = 1 and 0 <= expf(-x) <= 1.
* Rust `as usize` casts of floats saturate (negative values go to 0);
  this is modeled explicitly.
-/

set_option allowUnsafeReducibility true

attribute [semireducible] Rat.add Rat.mul Rat.sub Rat.neg Rat.div Rat.inv

/-- Little-endian byte decomposition of a 32-bit value, the model of
u32::to_le_bytes in UndoStack::record and f32::to_le_bytes in save_chunk. -/
def toLeBytes4 (n : Nat) : List Nat :=
  [n % 256, n / 256 % 256, n / 65536 % 256, n / 16777216 % 256]

/-- Little-endian byte recomposition, the model of u32::from_le_bytes and
f32::from_le_bytes. -/
def fromLeBytes4 (b0 b1 b2 b3 : Nat) : Nat :=
  b0 + 256 * b1 + 65536 * b2 + 16777216 * b3

/-- Model of chunks_exact(4) followed by from_le_bytes: regroup a byte
stream into 32-bit values, dropping a trailing partial group. -/
def bytesToU32s : List Nat → List Nat
  | b0 :: b1 :: b2 :: b3 :: rest => fromLeBytes4 b0 b1 b2 b3 :: bytesToU32s rest
  | _ => []

/-- Model of the XOR write-back loop in UndoStack::apply_delta: index i of
the heights is XORed with the i-th delta value while one exists. -/
def applyXor : List Nat → List Nat → List Nat
  | [], _ => []
  | hs, [] => hs
  | a :: hs, x :: xs => (a ^^^ x) :: applyXor hs xs

/-- HeightmapChunk at the bit level: heights hold the raw f32 bit
patterns.  Mirrors terrain/heightmap.rs. -/
structure ChunkB where
  coord : Int × Int
  heights : List Nat
  lod : Nat
  flowAcc : Option (List Nat)
  biomeIds : Option (List Nat)
  deriving DecidableEq, Repr

/-- UndoEntry from terrain/mod.rs: compressed XOR delta plus metadata. -/
structure UndoEntry where
  chunkCoord : Int × Int
  delta : List Nat
  affectedRect : Nat × Nat × Nat × Nat
  groupId : Nat
  deriving DecidableEq, Repr

/-- UndoStack from terrain/mod.rs.  The VecDeque is a list ordered
front-to-back: push_back appends, pop_front drops the head. -/
structure UndoStack where
  entries : List UndoEntry
  currentGroup : Nat
  maxEntries : Nat
  deriving DecidableEq, Repr

/-- UndoStack::new. -/
def UndoStack.new : UndoStack := ⟨[], 0, 1000⟩

/-- The eviction loop in UndoStack::record: pop from the front while the
length exceeds max_entries. -/
def trimFront (maxE : Nat) : List UndoEntry → List UndoEntry
  | [] => []
  | e :: rest => if maxE < (e :: rest).length then trimFront maxE rest else e :: rest

/-- UndoStack::record, with zstd::encode_all abstracted as enc (the Rust
code skips the push when compression fails; encoding an in-memory buffer
is modeled as total).  Length-mismatched snapshots are silently dropped. -/
def UndoStack.record (enc : List Nat → List Nat) (s : UndoStack)
    (chunk : ChunkB) (before : List Nat) : UndoStack :=
  if chunk.heights.length ≠ before.length then s
  else
    let xorDelta := (chunk.heights.zip before).flatMap fun p => toLeBytes4 (p.1 ^^^ p.2)
    let entry : UndoEntry := ⟨chunk.coord, enc xorDelta, (0, 0, 0, 0), s.currentGroup⟩
    { s with entries := trimFront s.maxEntries (s.entries ++ [entry]) }

/-- VecDeque::pop_back. -/
def popBack : List UndoEntry → Option (UndoEntry × List UndoEntry)
  | [] => none
  | [e] => some (e, [])
  | e :: e2 :: rest =>
    match popBack (e2 :: rest) with
    | some (x, r) => some (x, e :: r)
    | none => none

/-- Terrain session state relevant to undo: the chunk map (HashMap modeled
as an association list) and the dirty set. -/
structure TerrainB where
  chunks : List ((Int × Int) × ChunkB)
  dirty : List (Int × Int)
  deriving DecidableEq, Repr

/-- HashMap::get on the chunk map. -/
def lookupChunk : List ((Int × Int) × ChunkB) → (Int × Int) → Option ChunkB
  | [], _ => none
  | (k, c) :: rest, key => if k = key then some c else lookupChunk rest key

/-- In-place mutation of the chunk stored under a key. -/
def updateChunk : List ((Int × Int) × ChunkB) → (Int × Int) → ChunkB →
    List ((Int × Int) × ChunkB)
  | [], _, _ => []
  | (k, c) :: rest, key, c2 =>
    if k = key then (k, c2) :: rest else (k, c) :: updateChunk rest key c2

/-- HashSet::insert on the dirty set. -/
def insertDirty (coord : Int × Int) (l : List (Int × Int)) : List (Int × Int) :=
  if coord ∈ l then l else coord :: l

/-- TerrainData::mark_dirty. -/
def TerrainB.markDirty (t : TerrainB) (coord : Int × Int) : TerrainB :=
  { t with dirty := insertDirty coord t.dirty }

/-- UndoStack::apply_delta with zstd::decode_all abstracted as dec:
decompress the delta, regroup into 32-bit values, XOR them into the live
chunk, and mark it dirty.  A missing chunk or failed decompression leaves
the terrain untouched. -/
def applyDelta (dec : List Nat → Option (List Nat)) (entry : UndoEntry)
    (t : TerrainB) : TerrainB :=
  match lookupChunk t.chunks entry.chunkCoord with
  | none => t
  | some chunk =>
    match dec entry.delta with
    | none => t
    | some xorBytes =>
      let xorValues := bytesToU32s xorBytes
      let newChunk : ChunkB := { chunk with heights := applyXor chunk.heights xorValues }
      let t2 : TerrainB := { t with chunks := updateChunk t.chunks entry.chunkCoord newChunk }
      t2.markDirty entry.chunkCoord

/-- UndoStack::undo: pop the most recent entry and re-apply its delta. -/
def UndoStack.undo (dec : List Nat → Option (List Nat)) (s : UndoStack)
    (t : TerrainB) : Bool × UndoStack × TerrainB :=
  match popBack s.entries with
  | none => (false, s, t)
  | some (entry, rest) => (true, { s with entries := rest }, applyDelta dec entry t)

/-- One row of the terrain_chunks table in terrain/persistence.rs. -/
structure DbRow where
  data : List Nat
  flowData : Option (List Nat)
  biomeData : Option (List Nat)
  modifiedAt : Int
  deriving DecidableEq, Repr

/-- The terrain_chunks table, keyed by its primary key (chunk_x, chunk_z,
lod).  SQLite itself is an external collaborator; the table is modeled as
an association list. -/
def ChunkTable := List ((Int × Int × Nat) × DbRow)

/-- DELETE of a primary key, used to model INSERT OR REPLACE. -/
def dbErase : ChunkTable → (Int × Int × Nat) → ChunkTable
  | [], _ => []
  | (k, r) :: rest, key =>
    if k = key then dbErase rest key else (k, r) :: dbErase rest key

/-- INSERT OR REPLACE INTO terrain_chunks. -/
def dbInsert (db : ChunkTable) (key : Int × Int × Nat) (row : DbRow) : ChunkTable :=
  (key, row) :: dbErase db key

/-- SELECT ... WHERE chunk_x = ?1 AND chunk_z = ?2 AND lod = ?3. -/
def dbQuery : ChunkTable → (Int × Int × Nat) → Option DbRow
  | [], _ => none
  | (k, r) :: rest, key => if k = key then some r else dbQuery rest key

/-- TerrainDatabase::save_chunk: serialize heights to little-endian bytes,
compress, likewise for the optional flow data; biome bytes stored raw.
The timestamp is passed in for chrono::Utc::now. -/
def saveChunk (enc : List Nat → List Nat) (now : Int) (db : ChunkTable)
    (chunk : ChunkB) : ChunkTable :=
  let heightsBytes := chunk.heights.flatMap toLeBytes4
  let compressed := enc heightsBytes
  let flowCompressed := chunk.flowAcc.map fun f => enc (f.flatMap toLeBytes4)
  let biomeCompressed := chunk.biomeIds
  dbInsert db (chunk.coord.1, chunk.coord.2, chunk.lod)
    ⟨compressed, flowCompressed, biomeCompressed, now⟩

/-- TerrainDatabase::load_chunk: query the row, decompress, regroup bytes
into 32-bit patterns; failures (missing row, corrupt blob) become none. -/
def loadChunk (dec : List Nat → Option (List Nat)) (db : ChunkTable)
    (chunkX chunkZ : Int) (lod : Nat) : Option ChunkB :=
  match dbQuery db (chunkX, chunkZ, lod) with
  | none => none
  | some row =>
    match dec row.data with
    | none => none
    | some heightsBytes =>
      let heights := bytesToU32s heightsBytes
      match row.flowData with
      | none => some ⟨(chunkX, chunkZ), heights, lod, none, row.biomeData⟩
      | some flowComp =>
        match dec flowComp with
        | none => none
        | some flowBytes =>
          some ⟨(chunkX, chunkZ), heights, lod, some (bytesToU32s flowBytes),
            row.biomeData⟩

/-- Rust f32::clamp(0.0, 1.0) on the rational idealization. -/
def clamp01 (q : ℚ) : ℚ := if q < 0 then 0 else if 1 < q then 1 else q

/-- Mathematical floor of a rational, computable (fdiv is floor division
and the denominator is positive). -/
def ratFloor (q : ℚ) : Int := q.num.fdiv q.den

/-- Mathematical ceiling of a rational, computable. -/
def ratCeil (q : ℚ) : Int := -((-q.num).fdiv q.den)

/-- Model of ((center - radius).floor().max(0.0) as usize).min(vertex_count - 1)
from brush.rs; the saturating float-to-usize cast sends negatives to 0,
which Int.toNat does. -/
def brushMinIdx (center radius : ℚ) (vc : Nat) : Nat :=
  min (ratFloor (center - radius)).toNat (vc - 1)

/-- Model of ((center + radius).ceil().min(vertex_count - 1.0) as usize).min(vertex_count - 1). -/
def brushMaxIdx (center radius : ℚ) (vc : Nat) : Nat :=
  min (min (ratCeil (center + radius)) ((vc : Int) - 1)).toNat (vc - 1)

/-- Inclusive index range lo..=hi as a list (empty when hi < lo). -/
def idxRange (lo hi : Nat) : List Nat := List.range' lo (hi + 1 - lo)

/-- The (z, x) visit order of the brush double loop. -/
def brushCells (minX maxX minZ maxZ : Nat) : List (Nat × Nat) :=
  (idxRange minZ maxZ).flatMap fun z => (idxRange minX maxX).map fun x => (z, x)

/-- The footprint test dist <= radius, written on squared distances so the
f32 sqrt need not be modeled (for radius >= 0 the two are equivalent, and
for radius < 0 both fail). -/
def inFootprint (dx dz radius : ℚ) : Prop := 0 ≤ radius ∧ dx * dx + dz * dz ≤ radius * radius

instance (dx dz radius : ℚ) : Decidable (inFootprint dx dz radius) := by
  unfold inFootprint; infer_instance

/-- HeightmapChunk viewed at the numeric level: heights are rationals
standing in for f32 values. -/
structure ChunkQ where
  coord : Int × Int
  heights : List ℚ
  lod : Nat
  flowAcc : Option (List ℚ)
  biomeIds : Option (List Nat)
  deriving DecidableEq, Repr

/-- HeightmapChunk::apply_raise.  The Gaussian falloff is an abstract
parameter taking the squared distance and the radius; heights are bumped
by strength * falloff * 0.01 and clamped to [0,1]. -/
def applyRaise (falloff : ℚ → ℚ → ℚ) (chunk : ChunkQ)
    (cx cz radius strength : ℚ) (vc : Nat) : ChunkQ :=
  let cells := brushCells (brushMinIdx cx radius vc) (brushMaxIdx cx radius vc)
    (brushMinIdx cz radius vc) (brushMaxIdx cz radius vc)
  let newHeights := cells.foldl (fun hs zx =>
    let dx := (zx.2 : ℚ) - cx
    let dz := (zx.1 : ℚ) - cz
    if inFootprint dx dz radius then
      let f := falloff (dx * dx + dz * dz) radius
      let idx := zx.1 * vc + zx.2
      hs.set idx (clamp01 (hs.getD idx 0 + strength * f * mkRat 1 100))
    else hs) chunk.heights
  { chunk with heights := newHeights }

/-- HeightmapChunk::apply_lower is raise with negated strength. -/
def applyLower (falloff : ℚ → ℚ → ℚ) (chunk : ChunkQ)
    (cx cz radius strength : ℚ) (vc : Nat) : ChunkQ :=
  applyRaise falloff chunk cx cz radius (-strength) vc

/-- The kernel offsets -k..=k of calculate_average. -/
def kernelOffsets (k : Nat) : List Int := (List.range (2 * k + 1)).map fun i => (i : Int) - k

/-- HeightmapChunk::calculate_average: mean of the heights in a clamped
(2k+1)-square neighborhood. -/
def calcAverage (hs : List ℚ) (x z k vc : Nat) : ℚ :=
  let acc := ((kernelOffsets k).flatMap
      fun dzo => (kernelOffsets k).map fun dxo => (dzo, dxo)).foldl
    (fun (sc : ℚ × Nat) p =>
      let nx := (min (max ((x : Int) + p.2) 0) ((vc : Int) - 1)).toNat
      let nz := (min (max ((z : Int) + p.1) 0) ((vc : Int) - 1)).toNat
      let idx := nz * vc + nx
      if idx < hs.length then (sc.1 + hs.getD idx 0, sc.2 + 1) else sc)
    ((0 : ℚ), (0 : Nat))
  if 0 < acc.2 then acc.1 / (acc.2 : ℚ) else hs.getD (z * vc + x) 0

/-- HeightmapChunk::apply_smooth: blend toward the kernel-1 box average,
reading from the pre-brush heights, writing the cloned buffer. -/
def applySmooth (falloff : ℚ → ℚ → ℚ) (chunk : ChunkQ)
    (cx cz radius strength : ℚ) (vc : Nat) : ChunkQ :=
  let base := chunk.heights
  let cells := brushCells (brushMinIdx cx radius vc) (brushMaxIdx cx radius vc)
    (brushMinIdx cz radius vc) (brushMaxIdx cz radius vc)
  let newHeights := cells.foldl (fun sm zx =>
    let dx := (zx.2 : ℚ) - cx
    let dz := (zx.1 : ℚ) - cz
    if inFootprint dx dz radius then
      let f := falloff (dx * dx + dz * dz) radius
      let avg := calcAverage base zx.2 zx.1 1 vc
      let idx := zx.1 * vc + zx.2
      sm.set idx (base.getD idx 0 * (1 - strength * f) + avg * (strength * f))
    else sm) base
  { chunk with heights := newHeights }

/-- HeightmapChunk::apply_flatten: blend in place toward the target
height; note there is no clamp here. -/
def applyFlatten (falloff : ℚ → ℚ → ℚ) (chunk : ChunkQ)
    (cx cz radius strength targetHeight : ℚ) (vc : Nat) : ChunkQ :=
  let cells := brushCells (brushMinIdx cx radius vc) (brushMaxIdx cx radius vc)
    (brushMinIdx cz radius vc) (brushMaxIdx cz radius vc)
  let newHeights := cells.foldl (fun hs zx =>
    let dx := (zx.2 : ℚ) - cx
    let dz := (zx.1 : ℚ) - cz
    if inFootprint dx dz radius then
      let f := falloff (dx * dx + dz * dz) radius
      let idx := zx.1 * vc + zx.2
      hs.set idx (hs.getD idx 0 * (1 - strength * f) + targetHeight * (strength * f))
    else hs) chunk.heights
  { chunk with heights := newHeights }

/-- HeightmapChunk::apply_erode: blend in place toward the kernel-2
average with fixed coefficient 0.3 * falloff (droplet count unused). -/
def applyErode (falloff : ℚ → ℚ → ℚ) (chunk : ChunkQ)
    (cx cz radius : ℚ) (_dropletCount : Nat) (vc : Nat) : ChunkQ :=
  let cells := brushCells (brushMinIdx cx radius vc) (brushMaxIdx cx radius vc)
    (brushMinIdx cz radius vc) (brushMaxIdx cz radius vc)
  let newHeights := cells.foldl (fun hs zx =>
    let dx := (zx.2 : ℚ) - cx
    let dz := (zx.1 : ℚ) - cz
    if inFootprint dx dz radius then
      let f := falloff (dx * dx + dz * dz) radius
      let avg := calcAverage hs zx.2 zx.1 2 vc
      let idx := zx.1 * vc + zx.2
      hs.set idx (hs.getD idx 0 * (1 - mkRat 3 10 * f) + avg * (mkRat 3 10 * f))
    else hs) chunk.heights
  { chunk with heights := newHeights }

/-- HeightmapChunk::apply_noise: add scaled Perlin noise and clamp.  The
Perlin field (seeded from a random source) is an abstract parameter. -/
def applyNoise (falloff : ℚ → ℚ → ℚ) (noiseF : ℚ → ℚ → ℚ) (chunk : ChunkQ)
    (cx cz radius scale strength : ℚ) (vc : Nat) : ChunkQ :=
  let cells := brushCells (brushMinIdx cx radius vc) (brushMaxIdx cx radius vc)
    (brushMinIdx cz radius vc) (brushMaxIdx cz radius vc)
  let newHeights := cells.foldl (fun hs zx =>
    let dx := (zx.2 : ℚ) - cx
    let dz := (zx.1 : ℚ) - cz
    if inFootprint dx dz radius then
      let f := falloff (dx * dx + dz * dz) radius
      let noiseVal := noiseF ((zx.2 : ℚ) * scale) ((zx.1 : ℚ) * scale)
      let idx := zx.1 * vc + zx.2
      hs.set idx (clamp01 (hs.getD idx 0 + noiseVal * strength * f * mkRat 1 100))
    else hs) chunk.heights
  { chunk with heights := newHeights }

/-- BrushOp from terrain/brush.rs. -/
inductive BrushOp where
  | raise
  | lower
  | smooth
  | flatten (targetHeight : ℚ)
  | erode (dropletCount : Nat)
  | noiseAdd (scale strength : ℚ)
  deriving DecidableEq, Repr

/-- HeightmapChunk::apply_brush dispatch. -/
def applyBrush (falloff noiseF : ℚ → ℚ → ℚ) (chunk : ChunkQ)
    (cx cz radius strength : ℚ) (op : BrushOp) (vc : Nat) : ChunkQ :=
  match op with
  | .raise => applyRaise falloff chunk cx cz radius strength vc
  | .lower => applyLower falloff chunk cx cz radius strength vc
  | .smooth => applySmooth falloff chunk cx cz radius strength vc
  | .flatten t => applyFlatten falloff chunk cx cz radius strength t vc
  | .erode n => applyErode falloff chunk cx cz radius n vc
  | .noiseAdd scale ns => applyNoise falloff noiseF chunk cx cz radius scale ns vc

/-- WorldTheme from terrain/config.rs. -/
inductive WorldThemeR where
  | fantasy
  | modern
  | scifi
  deriving DecidableEq, Repr

/-- TerrainConfig from terrain/config.rs (numeric fields as rationals). -/
structure ConfigR where
  chunkSize : Nat
  vertexCount : Nat
  worldWidth : Nat
  worldHeight : Nat
  cellSizeMeters : ℚ
  maxElevation : ℚ
  seaLevel : ℚ
  seed : Nat
  theme : WorldThemeR
  deriving DecidableEq, Repr

/-- TerrainConfig::default. -/
def ConfigR.default : ConfigR :=
  ⟨128, 129, 2048, 2048, 100, 4000, mkRat 1 5, 12345, .fantasy⟩

/-- WaterSource from terrain/mod.rs. -/
structure WaterSourceR where
  x : Nat
  y : Nat
  flowRate : ℚ
  active : Bool
  deriving DecidableEq, Repr

/-- RiverSegment from terrain/rivers.rs. -/
structure RiverSegmentQ where
  id : Nat
  path : List (ℚ × ℚ)
  strahlerOrder : Nat
  widthMeters : ℚ
  deriving DecidableEq, Repr

/-- TerrainData at the numeric level: the fields touched by the brush and
hydrology commands. -/
structure TerrainQ where
  config : ConfigR
  chunks : List ((Int × Int) × ChunkQ)
  dirty : List (Int × Int)
  riverNetwork : List RiverSegmentQ
  waterSources : List WaterSourceR
  deriving DecidableEq, Repr

/-- HashMap::get on the numeric chunk map. -/
def lookupChunkQ : List ((Int × Int) × ChunkQ) → (Int × Int) → Option ChunkQ
  | [], _ => none
  | (k, c) :: rest, key => if k = key then some c else lookupChunkQ rest key

/-- In-place replacement of the chunk stored under a key. -/
def updateChunkQ : List ((Int × Int) × ChunkQ) → (Int × Int) → ChunkQ →
    List ((Int × Int) × ChunkQ)
  | [], _, _ => []
  | (k, c) :: rest, key, c2 =>
    if k = key then (k, c2) :: rest else (k, c) :: updateChunkQ rest key c2

/-- ApplyBrushRequest from terrain/commands.rs. -/
structure BrushRequest where
  chunkX : Int
  chunkZ : Int
  centerX : ℚ
  centerZ : ℚ
  radius : ℚ
  strength : ℚ
  brushType : String
  deriving DecidableEq, Repr

/-- The brush_type string match at the top of the apply_brush command,
including its hard-coded parameters (flatten target 0.5, erode droplet
count 100, noise scale 0.1). -/
def parseBrushOp (s : String) (strength : ℚ) : Option BrushOp :=
  if s = "raise" then some .raise
  else if s = "lower" then some .lower
  else if s = "smooth" then some .smooth
  else if s = "flatten" then some (.flatten (mkRat 1 2))
  else if s = "erode" then some (.erode 100)
  else if s = "noise" then some (.noiseAdd (mkRat 1 10) strength)
  else none

/-- The apply_brush tauri command: parse the op name, look up the chunk,
apply the brush, mark the chunk dirty, and return the updated heights
(the raw little-endian f32 response is represented by the height list).
The state is threaded explicitly; an error leaves it as received. -/
def applyBrushCommand (falloff noiseF : ℚ → ℚ → ℚ) (req : BrushRequest)
    (t : TerrainQ) : Except String (List ℚ) × TerrainQ :=
  match parseBrushOp req.brushType req.strength with
  | none => (.error "Unknown brush type", t)
  | some op =>
    match lookupChunkQ t.chunks (req.chunkX, req.chunkZ) with
    | none => (.error "Chunk not found", t)
    | some chunk =>
      let c2 := applyBrush falloff noiseF chunk req.centerX req.centerZ req.radius
        req.strength op t.config.vertexCount
      let t2 : TerrainQ := { t with
        chunks := updateChunkQ t.chunks (req.chunkX, req.chunkZ) c2,
        dirty := insertDirty (req.chunkX, req.chunkZ) t.dirty }
      (.ok c2.heights, t2)

/-- D8 x-offsets in scan order E, SE, S, SW, W, NW, N, NE. -/
def dx8 : Nat → Int
  | 0 => 1 | 1 => 1 | 2 => 0 | 3 => -1 | 4 => -1 | 5 => -1 | 6 => 0 | 7 => 1
  | _ => 0

/-- D8 z-offsets in scan order E, SE, S, SW, W, NW, N, NE. -/
def dz8 : Nat → Int
  | 0 => 0 | 1 => 1 | 2 => 1 | 3 => 1 | 4 => 0 | 5 => -1 | 6 => -1 | 7 => -1
  | _ => 0

/-- get_neighbors_8 from terrain/hydrology.rs: in-bounds 8-neighbors in
scan order. -/
def neighbors8 (x z w h : Nat) : List (Nat × Nat) :=
  (List.range 8).filterMap fun d =>
    let nx := (x : Int) + dx8 d
    let nz := (z : Int) + dz8 d
    if 0 ≤ nx ∧ nx < (w : Int) ∧ 0 ≤ nz ∧ nz < (h : Int) then
      some (nx.toNat, nz.toNat)
    else none

/-- The epsilon drainage increment of fill_depressions. -/
def epsilonQ : ℚ := mkRat 1 10000

/-- Cell in the priority queue of fill_depressions. -/
structure FCell where
  x : Nat
  z : Nat
  hgt : ℚ
  deriving DecidableEq, Repr

/-- BinaryHeap::pop on the min-heap of cells: extract a cell of minimal
height (the heap leaves the choice among equal heights unspecified; the
first such cell is taken). -/
def popMin : List FCell → Option (FCell × List FCell)
  | [] => none
  | c :: rest =>
    match popMin rest with
    | none => some (c, [])
    | some (m, rest2) => if c.hgt ≤ m.hgt then some (c, rest) else some (m, c :: rest2)

/-- The seeding phase of fill_depressions: push every border cell (top and
bottom rows, then left and right columns) and mark it closed. -/
def seedCells (hs : List ℚ) (w h : Nat) : List FCell × List Bool :=
  let s1 := (List.range w).foldl
    (fun (acc : List FCell × List Bool) x =>
      let i1 := x
      let acc2 := (acc.1 ++ [⟨x, 0, hs.getD i1 0⟩], acc.2.set i1 true)
      let z := h - 1
      let i2 := z * w + x
      (acc2.1 ++ [⟨x, z, hs.getD i2 0⟩], acc2.2.set i2 true))
    (([] : List FCell), List.replicate (w * h) false)
  (List.range' 1 (h - 2)).foldl
    (fun (acc : List FCell × List Bool) z =>
      let i1 := z * w
      let acc2 := (acc.1 ++ [⟨0, z, hs.getD i1 0⟩], acc.2.set i1 true)
      let x := w - 1
      let i2 := z * w + x
      (acc2.1 ++ [⟨x, z, hs.getD i2 0⟩], acc2.2.set i2 true))
    s1

/-- The neighbor-processing loop of fill_depressions: raise unresolved
lower neighbors to popped height + epsilon, push them, and close them. -/
def processNbrs (w : Nat) (cellH : ℚ) (nbrs : List (Nat × Nat))
    (st : List FCell × List Bool × List ℚ) : List FCell × List Bool × List ℚ :=
  nbrs.foldl
    (fun st p =>
      let idx := p.2 * w + p.1
      if st.2.1.getD idx true then st
      else
        let nh := st.2.2.getD idx 0
        if nh < cellH then
          (st.1 ++ [⟨p.1, p.2, cellH + epsilonQ⟩], st.2.1.set idx true,
            st.2.2.set idx (cellH + epsilonQ))
        else
          (st.1 ++ [⟨p.1, p.2, nh⟩], st.2.1.set idx true, st.2.2))
    st

/-- The main Priority-Flood loop of fill_depressions.  One unit of fuel is
spent per pop; the fuel passed by fillDepressions strictly exceeds the
loop measure, so the queue always empties before the fuel does. -/
def fillLoop (w h : Nat) : Nat → List FCell → List Bool → List ℚ → List ℚ
  | 0, _, _, hs => hs
  | fuel + 1, opn, closed, hs =>
    match popMin opn with
    | none => hs
    | some (cell, rest) =>
      let st := processNbrs w cell.hgt (neighbors8 cell.x cell.z w h) (rest, closed, hs)
      fillLoop w h fuel st.1 st.2.1 st.2.2

/-- fill_depressions from terrain/hydrology.rs (Priority-Flood). -/
def fillDepressions (hs : List ℚ) (w h : Nat) : List ℚ :=
  let seeded := seedCells hs w h
  fillLoop w h (2 * w + 2 * h + w * h + 1) seeded.1 seeded.2 hs

/-- The inner direction scan of calculate_flow_direction: fold over the 8
directions keeping the first strictly steeper positive slope. -/
def flowDirCell (hs : List ℚ) (w h x z : Nat) : Nat :=
  let hv := hs.getD (z * w + x) 0
  ((List.range 8).foldl
    (fun (acc : ℚ × Nat) d =>
      let nx := (x : Int) + dx8 d
      let nz := (z : Int) + dz8 d
      if 0 ≤ nx ∧ nx < (w : Int) ∧ 0 ≤ nz ∧ nz < (h : Int) then
        let slope := hv - hs.getD (nz.toNat * w + nx.toNat) 0
        if acc.1 < slope then (slope, d) else acc
      else acc)
    ((0 : ℚ), 255)).2

/-- calculate_flow_direction from terrain/hydrology.rs: D8 steepest
descent per cell, 255 meaning no flow. -/
def calcFlowDirection (hs : List ℚ) (w h : Nat) : List Nat :=
  (List.range h).flatMap fun z => (List.range w).map fun x => flowDirCell hs w h x z

/-- The cell enumeration of calculate_flow_accumulation, sorted by height
descending (Rust sort_by with partial_cmp reversed). -/
def cellsByDescHeight (hs : List ℚ) (w h : Nat) : List (Nat × Nat × ℚ) :=
  (((List.range h).flatMap fun z =>
      (List.range w).map fun x => (x, z, hs.getD (z * w + x) 0))).mergeSort
    fun a b => decide (b.2.2 ≤ a.2.2)

/-- One step of the flow propagation loop: add this cell's accumulation
into its downstream neighbor if it has one. -/
def accumStep (w h : Nat) (fd : List Nat) (acc : List ℚ) (c : Nat × Nat × ℚ) : List ℚ :=
  let idx := c.2.1 * w + c.1
  let d := fd.getD idx 255
  if d < 8 then
    let nx := (c.1 : Int) + dx8 d
    let nz := (c.2.1 : Int) + dz8 d
    if 0 ≤ nx ∧ nx < (w : Int) ∧ 0 ≤ nz ∧ nz < (h : Int) then
      let nidx := nz.toNat * w + nx.toNat
      acc.set nidx (acc.getD nidx 0 + acc.getD idx 0)
    else acc
  else acc

/-- calculate_flow_accumulation from terrain/hydrology.rs: every cell
starts at 1, cells are processed in descending elevation order, and each
cell's accumulation is added to its single downstream neighbor. -/
def calcFlowAccumulation (hs : List ℚ) (fd : List Nat) (w h : Nat) : List ℚ :=
  (cellsByDescHeight hs w h).foldl (accumStep w h fd) (List.replicate (w * h) 1)

/-- trace_river_path from terrain/rivers.rs, fuel-limited to the 1000-step
budget of the source loop. -/
def traceLoop (fd : List Nat) (w h : Nat) :
    Nat → Nat → Nat → List Bool → List (ℚ × ℚ) → List (ℚ × ℚ) × List Bool
  | 0, _, _, visited, path => (path, visited)
  | fuel + 1, x, z, visited, path =>
    let idx := z * w + x
    if visited.length ≤ idx then (path, visited)
    else
      let path2 := path ++ [((x : ℚ), (z : ℚ))]
      let visited2 := visited.set idx true
      let d := fd.getD idx 255
      if 8 ≤ d then (path2, visited2)
      else
        let nx := (x : Int) + dx8 d
        let nz := (z : Int) + dz8 d
        if nx < 0 ∨ (w : Int) ≤ nx ∨ nz < 0 ∨ (h : Int) ≤ nz then (path2, visited2)
        else if visited2.getD (nz.toNat * w + nx.toNat) false then (path2, visited2)
        else traceLoop fd w h fuel nx.toNat nz.toNat visited2 path2

/-- calculate_order from terrain/rivers.rs: accumulation-magnitude bucket. -/
def calcOrder (fa : ℚ) : Nat :=
  if fa < 1000 then 1
  else if fa < 5000 then 2
  else if fa < 20000 then 3
  else if fa < 100000 then 4
  else 5

/-- calculate_width from terrain/rivers.rs: 5 m base scaled by 1.5 per
order tier. -/
def calcWidth (order : Nat) : ℚ := 5 * mkRat 3 2 ^ (order - 1)

/-- extract_rivers from terrain/rivers.rs: scan cells row-major, trace a
path from each unvisited cell at or above the threshold, keep paths longer
than 2. -/
def extractRivers (fa : List ℚ) (fd : List Nat) (w h : Nat) (threshold : ℚ) :
    List RiverSegmentQ :=
  (((List.range h).flatMap fun z => (List.range w).map fun x => (x, z)).foldl
    (fun (st : List RiverSegmentQ × List Bool × Nat) p =>
      let idx := p.2 * w + p.1
      if threshold ≤ fa.getD idx 0 ∧ st.2.1.getD idx false = false then
        let traced := traceLoop fd w h 1000 p.1 p.2 st.2.1 []
        if 2 < traced.1.length then
          let order := calcOrder (fa.getD idx 0)
          (st.1 ++ [⟨st.2.2, traced.1, order, calcWidth order⟩], traced.2, st.2.2 + 1)
        else (st.1, traced.2, st.2.2)
      else st)
    (([] : List RiverSegmentQ), List.replicate (w * h) false, 0)).1

/-- The i32-to-usize cast used on chunk coordinates when flattening chunks
into the world buffer (sign extension then reinterpretation). -/
def usizeOfI32 (i : Int) : Nat := (i % (18446744073709551616 : Int)).toNat

/-- One chunk's contribution to the flattened world height buffer
(the copy loop shared by simulate_hydrology and apply_weathering). -/
def writeChunkToFlat (cfg : ConfigR) (w h : Nat) (coord : Int × Int)
    (chunk : ChunkQ) (hs : List ℚ) : List ℚ :=
  let ox := usizeOfI32 coord.1 * cfg.chunkSize
  let oz := usizeOfI32 coord.2 * cfg.chunkSize
  (((List.range cfg.vertexCount).flatMap fun lz =>
      (List.range cfg.vertexCount).map fun lx => (lz, lx))).foldl
    (fun hs p =>
      let gx := ox + p.2
      let gz := oz + p.1
      if gx < w ∧ gz < h then
        hs.set (gz * w + gx) (chunk.heights.getD (p.1 * cfg.vertexCount + p.2) 0)
      else hs) hs

/-- Flatten all chunks into one world buffer. -/
def flattenChunks (t : TerrainQ) (w h : Nat) : List ℚ :=
  t.chunks.foldl (fun hs e => writeChunkToFlat t.config w h e.1 e.2 hs)
    (List.replicate (w * h) 0)

/-- The write-back loop: refill one chunk's heights from the world
buffer. -/
def readChunkFromFlat (cfg : ConfigR) (w h : Nat) (coord : Int × Int)
    (chunk : ChunkQ) (hs : List ℚ) : ChunkQ :=
  let ox := usizeOfI32 coord.1 * cfg.chunkSize
  let oz := usizeOfI32 coord.2 * cfg.chunkSize
  let newHeights := (((List.range cfg.vertexCount).flatMap fun lz =>
      (List.range cfg.vertexCount).map fun lx => (lz, lx))).foldl
    (fun ch p =>
      let gx := ox + p.2
      let gz := oz + p.1
      if gx < w ∧ gz < h then
        ch.set (p.1 * cfg.vertexCount + p.2) (hs.getD (gz * w + gx) 0)
      else ch) chunk.heights
  { chunk with heights := newHeights }

/-- GenerateTerrainResponse (success flag and chunk count; the formatted
message string is omitted). -/
structure RespR where
  success : Bool
  chunkCount : Nat
  deriving DecidableEq, Repr

/-- The simulate_hydrology tauri command.  erode_terrain_parallel draws
droplet spawn positions from an OS-entropy RNG and commits deltas in
scheduler order, so it is abstracted as the parameter erodeF of the
droplet count and the flattened buffer.  The empty-water-source
precondition produces an error before any state is touched. -/
def simulateHydrology (erodeF : Nat → List ℚ → List ℚ) (steps : Nat)
    (enableLakes _enableCapture : Bool) (t : TerrainQ) :
    Except String RespR × TerrainQ :=
  if t.waterSources = [] then
    (.error "No water sources placed. Place water sources first.", t)
  else
    let w := t.config.worldWidth
    let h := t.config.worldHeight
    let hs0 := flattenChunks t w h
    let hs1 := erodeF (steps * t.waterSources.length * 10) hs0
    let hs2 := if enableLakes then fillDepressions hs1 w h else hs1
    let fd := calcFlowDirection hs2 w h
    let fa := calcFlowAccumulation hs2 fd w h
    let rn := extractRivers fa fd w h 500
    let chunks2 := t.chunks.map fun e => (e.1, readChunkFromFlat t.config w h e.1 e.2 hs2)
    let dirty2 := t.chunks.foldl (fun dl e => insertDirty e.1 dl) t.dirty
    let t2 : TerrainQ := { t with chunks := chunks2, dirty := dirty2, riverNetwork := rn }
    (.ok ⟨true, chunks2.length⟩, t2)

/-- All heights normalized to the unit interval, the invariant the spec
asserts for brush writes. -/
def InRange01 (l : List ℚ) : Prop := ∀ q ∈ l, 0 ≤ q ∧ q ≤ 1

instance (l : List ℚ) : Decidable (InRange01 l) := by
  unfold InRange01; infer_instance

/-- Facts about gaussian_falloff that hold exactly even in f32: the value
at distance zero is expf(-0) = 1, and expf of a non-positive argument lies
in [0, 1]. -/
def GaussFacts (falloff : ℚ → ℚ → ℚ) : Prop :=
  (∀ r, falloff 0 r = 1) ∧ ∀ d r, 0 ≤ falloff d r ∧ falloff d r ≤ 1

/-- The extra assumptions under which the non-clamping brush blends stay
inside [0,1]: Smooth needs a blend weight at most 1, Flatten additionally
a target inside [0,1].  The clamped or fixed-coefficient ops need
nothing. -/
def BrushPrecondition (op : BrushOp) (strength : ℚ) : Prop :=
  match op with
  | .smooth => 0 ≤ strength ∧ strength ≤ 1
  | .flatten t => (0 ≤ strength ∧ strength ≤ 1) ∧ 0 ≤ t ∧ t ≤ 1
  | _ => True

/-- In-bounds test for the D8 neighbor of (x, z) in direction d. -/
def d8InBounds (w h x z d : Nat) : Prop :=
  0 ≤ (x : Int) + dx8 d ∧ (x : Int) + dx8 d < (w : Int) ∧
  0 ≤ (z : Int) + dz8 d ∧ (z : Int) + dz8 d < (h : Int)

instance (w h x z d : Nat) : Decidable (d8InBounds w h x z d) := by
  unfold d8InBounds; infer_instance

/-- Flat index of the D8 neighbor of (x, z) in direction d. -/
def d8NeighborIdx (w x z d : Nat) : Nat :=
  ((z : Int) + dz8 d).toNat * w + ((x : Int) + dx8 d).toNat

/-- The height drop from cell (x, z) to its D8 neighbor in direction d
(h - nh in calculate_flow_direction). -/
def d8Slope (hs : List ℚ) (w x z d : Nat) : ℚ :=
  hs.getD (z * w + x) 0 - hs.getD (d8NeighborIdx w x z d) 0

/-- Flat row-major index of a cell record of the accumulation pass. -/
def cellKey (w : Nat) (c : Nat × Nat × ℚ) : Nat := c.2.1 * w + c.1

/-- The direction-scan accumulator of calculate_flow_direction after the
first k of the 8 directions, abstracted over the slope and the bounds
test; flowDirCell is the second component at k = 8. -/
def d8ScanAcc (sl : Nat → ℚ) (inbP : Nat → Prop) [DecidablePred inbP] (k : Nat) :
    ℚ × Nat :=
  (List.range k).foldl
    (fun acc d => if inbP d then (if acc.1 < sl d then (sl d, d) else acc) else acc)
    ((0 : ℚ), 255)

/-- Border cell of the grid (the seeds of Priority-Flood). -/
def isBorder (w h x z : Nat) : Prop := x = 0 ∨ x = w - 1 ∨ z = 0 ∨ z = h - 1

/-- Loop invariant of the Priority-Flood main loop: closed and height
buffers keep their size, every queued cell is an in-bounds closed cell
whose stored height is live, every closed cell is a border cell or has a
closed neighbor no higher than itself, every border cell is closed, and
every closed cell still waits in the queue or has all neighbors closed. -/
structure FillInv (w h : Nat) (opn : List FCell) (closed : List Bool)
    (hs : List ℚ) : Prop where
  hclen : closed.length = w * h
  hhlen : hs.length = w * h
  hopen : ∀ c ∈ opn, c.x < w ∧ c.z < h ∧ closed.getD (c.z * w + c.x) true = true ∧
    c.hgt = hs.getD (c.z * w + c.x) 0
  hlocal : ∀ x2 < w, ∀ z2 < h, closed.getD (z2 * w + x2) true = true →
    isBorder w h x2 z2 ∨ ∃ p ∈ neighbors8 x2 z2 w h,
      closed.getD (p.2 * w + p.1) true = true ∧
      hs.getD (p.2 * w + p.1) 0 ≤ hs.getD (z2 * w + x2) 0
  hborder : ∀ x2 < w, ∀ z2 < h, isBorder w h x2 z2 →
    closed.getD (z2 * w + x2) true = true
  hfrontier : ∀ x2 < w, ∀ z2 < h, closed.getD (z2 * w + x2) true = true →
    (∃ c ∈ opn, c.x = x2 ∧ c.z = z2) ∨
    ∀ p ∈ neighbors8 x2 z2 w h, closed.getD (p.2 * w + p.1) true = true

/-- The same invariant relativized to the popped cell (cx, cz) while its
neighbors are being processed: the popped cell's slot in the queue is
gone, so its coordinates are excused from the frontier condition, and its
height must stay live at the recorded value. -/
structure PInv (w h cx cz : Nat) (cellH : ℚ)
    (st : List FCell × List Bool × List ℚ) : Prop where
  hclen : st.2.1.length = w * h
  hhlen : st.2.2.length = w * h
  hopen : ∀ c ∈ st.1, c.x < w ∧ c.z < h ∧ st.2.1.getD (c.z * w + c.x) true = true ∧
    c.hgt = st.2.2.getD (c.z * w + c.x) 0
  hlocal : ∀ x2 < w, ∀ z2 < h, st.2.1.getD (z2 * w + x2) true = true →
    isBorder w h x2 z2 ∨ ∃ p ∈ neighbors8 x2 z2 w h,
      st.2.1.getD (p.2 * w + p.1) true = true ∧
      st.2.2.getD (p.2 * w + p.1) 0 ≤ st.2.2.getD (z2 * w + x2) 0
  hborder : ∀ x2 < w, ∀ z2 < h, isBorder w h x2 z2 →
    st.2.1.getD (z2 * w + x2) true = true
  hfrontier : ∀ x2 < w, ∀ z2 < h, st.2.1.getD (z2 * w + x2) true = true →
    (∃ c ∈ st.1, c.x = x2 ∧ c.z = z2) ∨
    (∀ p ∈ neighbors8 x2 z2 w h, st.2.1.getD (p.2 * w + p.1) true = true) ∨
    (x2 = cx ∧ z2 = cz)
  hcell : st.2.1.getD (cz * w + cx) true = true ∧ st.2.2.getD (cz * w + cx) 0 = cellH

theorem fromLeBytes4_toLeBytes4 (n : Nat) (h : n < 4294967296) :
    fromLeBytes4 (n % 256) (n / 256 % 256) (n / 65536 % 256) (n / 16777216 % 256) = n := by
  unfold fromLeBytes4
  omega

theorem bytesToU32s_flatMap (l : List Nat) (hl : ∀ n ∈ l, n < 4294967296) :
    bytesToU32s (l.flatMap toLeBytes4) = l := by
  induction l with
  | nil => rfl
  | cons n rest ih =>
    have hn : n < 4294967296 := hl n (List.mem_cons_self n rest)
    have hrest : ∀ m ∈ rest, m < 4294967296 := fun m hm => hl m (List.mem_cons_of_mem n hm)
    rw [show (n :: rest).flatMap toLeBytes4 = toLeBytes4 n ++ rest.flatMap toLeBytes4 from rfl]
    simp only [toLeBytes4, List.cons_append, List.nil_append, bytesToU32s]
    rw [show ([] : List Nat).append (rest.flatMap toLeBytes4) = rest.flatMap toLeBytes4 from rfl,
      ih hrest, fromLeBytes4_toLeBytes4 n hn]

theorem popBack_append (xs : List UndoEntry) (e : UndoEntry) :
    popBack (xs ++ [e]) = some (e, xs) := by
  induction xs with
  | nil => rfl
  | cons a xs ih =>
    cases xs with
    | nil => rfl
    | cons b xs2 =>
      simp only [List.cons_append] at ih ⊢
      rw [popBack, ih]

theorem trimFront_eq_drop (m : Nat) (l : List UndoEntry) :
    trimFront m l = l.drop (l.length - m) := by
  induction l with
  | nil => simp [trimFront]
  | cons a l ih =>
    rw [trimFront]
    by_cases h : m < (a :: l).length
    · rw [if_pos h, ih]
      have h2 : (a :: l).length - m = (l.length - m) + 1 := by
        simp only [List.length_cons] at h ⊢
        omega
      rw [h2, List.drop_succ_cons]
    · rw [if_neg h]
      have h2 : (a :: l).length - m = 0 := by
        simp only [List.length_cons] at h ⊢
        omega
      rw [h2, List.drop_zero]

theorem applyXor_zip (a b : List Nat) (hlen : a.length = b.length) :
    applyXor a ((a.zip b).map fun p => p.1 ^^^ p.2) = b := by
  induction a generalizing b with
  | nil =>
    cases b with
    | nil => rfl
    | cons x xs => simp at hlen
  | cons x xs ih =>
    cases b with
    | nil => simp at hlen
    | cons y ys =>
      simp only [List.length_cons, Nat.add_right_cancel_iff] at hlen
      simp only [List.zip_cons_cons, List.map_cons, applyXor, ih ys hlen]
      rw [← Nat.xor_assoc, Nat.xor_self, Nat.zero_xor]
      exact congrArg (List.cons y) (ih ys hlen)

theorem lookupChunk_updateChunk (l : List ((Int × Int) × ChunkB)) (k : Int × Int)
    (c c2 : ChunkB) (h : lookupChunk l k = some c) :
    lookupChunk (updateChunk l k c2) k = some c2 := by
  induction l with
  | nil => simp [lookupChunk] at h
  | cons p rest ih =>
    obtain ⟨kk, cc⟩ := p
    rw [lookupChunk] at h
    rw [updateChunk]
    by_cases hk : kk = k
    · rw [if_pos hk, lookupChunk, if_pos hk]
    · rw [if_neg hk] at h
      rw [if_neg hk, lookupChunk, if_neg hk]
      exact ih h

theorem record_entries_eq (enc : List Nat → List Nat) (s : UndoStack)
    (cc : Int × Int) (after before : List Nat) (lod : Nat)
    (fa bi : Option (List Nat)) (hlen : after.length = before.length) :
    UndoStack.record enc s ⟨cc, after, lod, fa, bi⟩ before =
      { s with entries := trimFront s.maxEntries (s.entries ++
        [⟨cc, enc ((after.zip before).flatMap fun p => toLeBytes4 (p.1 ^^^ p.2)),
          (0, 0, 0, 0), s.currentGroup⟩]) } := by
  rw [UndoStack.record, if_neg (by simpa using hlen)]

theorem popBack_trimFront (m : Nat) (hm : 1 ≤ m) (l : List UndoEntry) (e : UndoEntry) :
    popBack (trimFront m (l ++ [e])) =
      some (e, l.drop ((l ++ [e]).length - m)) := by
  have hk : (l ++ [e]).length - m ≤ l.length := by
    simp only [List.length_append, List.length_cons, List.length_nil]
    omega
  rw [trimFront_eq_drop, List.drop_append_of_le_length hk, popBack_append]

theorem bytesToU32s_xor_delta (after before : List Nat)
    (ha : ∀ v ∈ after, v < 4294967296) (hb : ∀ v ∈ before, v < 4294967296) :
    bytesToU32s ((after.zip before).flatMap fun p => toLeBytes4 (p.1 ^^^ p.2)) =
      (after.zip before).map fun p => p.1 ^^^ p.2 := by
  have h1 : ((after.zip before).flatMap fun p => toLeBytes4 (p.1 ^^^ p.2)) =
      ((after.zip before).map fun p => p.1 ^^^ p.2).flatMap toLeBytes4 := by
    rw [List.flatMap_map]
  rw [h1]
  apply bytesToU32s_flatMap
  intro n hn
  obtain ⟨p, hp, rfl⟩ := List.mem_map.mp hn
  have hmem := List.of_mem_zip hp
  have h32 : (4294967296 : Nat) = 2 ^ 32 := by norm_num
  rw [h32]
  exact Nat.xor_lt_two_pow (h32 ▸ ha p.1 hmem.1) (h32 ▸ hb p.2 hmem.2)

/-- C1: recording a brush edit (any post-edit bit pattern, in particular
the Raise result on a flat 0.2 chunk) with the pre-edit snapshot and then
undoing re-applies the compressed XOR delta and restores the chunk's exact
prior bit pattern, sample for sample. -/
theorem record_undo_restores_bits (enc : List Nat → List Nat)
    (dec : List Nat → Option (List Nat))
    (hdec : ∀ b, dec (enc b) = some b)
    (s : UndoStack) (hmax : 1 ≤ s.maxEntries)
    (cc : Int × Int) (after before : List Nat) (lod : Nat)
    (fa bi : Option (List Nat)) (t : TerrainB)
    (hlen : after.length = before.length)
    (ha : ∀ v ∈ after, v < 4294967296) (hb : ∀ v ∈ before, v < 4294967296)
    (hchunk : lookupChunk t.chunks cc = some ⟨cc, after, lod, fa, bi⟩) :
    (UndoStack.undo dec (UndoStack.record enc s ⟨cc, after, lod, fa, bi⟩ before) t).1 = true ∧
    lookupChunk
      (UndoStack.undo dec (UndoStack.record enc s ⟨cc, after, lod, fa, bi⟩ before) t).2.2.chunks
      cc = some ⟨cc, before, lod, fa, bi⟩ := by
  rw [record_entries_eq enc s cc after before lod fa bi hlen]
  rw [UndoStack.undo]
  rw [popBack_trimFront s.maxEntries hmax s.entries _]
  simp only
  rw [applyDelta]
  simp only [hchunk, hdec]
  rw [bytesToU32s_xor_delta after before ha hb, applyXor_zip after before hlen]
  refine ⟨trivial, ?_⟩
  exact lookupChunk_updateChunk t.chunks cc _ _ hchunk

/-- Witness for C1 at a concrete input: a 2x2 sample grid flat at the bit
pattern of 0.2f32 (0x3E4CCCCD = 1045220557), edited to an arbitrary other
pattern, recorded and undone with the identity codec. -/
theorem record_undo_restores_bits_witness :
    (UndoStack.undo some (UndoStack.record id UndoStack.new
      ⟨(0, 0), [1045220557, 1050000000, 1049000000, 1045220557], 0, none, none⟩
      (List.replicate 4 1045220557))
      ⟨[((0, 0), ⟨(0, 0), [1045220557, 1050000000, 1049000000, 1045220557], 0, none, none⟩)],
        []⟩).1 = true ∧
    lookupChunk (UndoStack.undo some (UndoStack.record id UndoStack.new
      ⟨(0, 0), [1045220557, 1050000000, 1049000000, 1045220557], 0, none, none⟩
      (List.replicate 4 1045220557))
      ⟨[((0, 0), ⟨(0, 0), [1045220557, 1050000000, 1049000000, 1045220557], 0, none, none⟩)],
        []⟩).2.2.chunks (0, 0)
      = some ⟨(0, 0), List.replicate 4 1045220557, 0, none, none⟩ :=
  record_undo_restores_bits id some (fun _ => rfl) UndoStack.new (by decide) (0, 0)
    [1045220557, 1050000000, 1049000000, 1045220557] (List.replicate 4 1045220557) 0
    none none
    ⟨[((0, 0), ⟨(0, 0), [1045220557, 1050000000, 1049000000, 1045220557], 0, none, none⟩)], []⟩
    (by decide) (by decide) (by decide) (by decide)

/-- C10: recording an undo snapshot whose length differs from the chunk's
current height array is a silent no-op: no entry is pushed, and the stack
(entries and group counter alike) is returned exactly unchanged. -/
theorem record_length_mismatch_noop (enc : List Nat → List Nat) (s : UndoStack)
    (chunk : ChunkB) (before : List Nat)
    (h : chunk.heights.length ≠ before.length) :
    UndoStack.record enc s chunk before = s := by
  rw [UndoStack.record, if_pos h]

/-- Witness for C10: a one-sample chunk recorded against an empty
snapshot leaves a fresh stack untouched. -/
theorem record_length_mismatch_noop_witness :
    ((⟨(0, 0), [7], 0, none, none⟩ : ChunkB).heights.length ≠ ([] : List Nat).length) ∧
    UndoStack.record id UndoStack.new ⟨(0, 0), [7], 0, none, none⟩ [] = UndoStack.new :=
  ⟨by decide, record_length_mismatch_noop id UndoStack.new ⟨(0, 0), [7], 0, none, none⟩ []
    (by decide)⟩

theorem dbQuery_dbInsert (db : ChunkTable) (k : Int × Int × Nat) (r : DbRow) :
    dbQuery (dbInsert db k r) k = some r := by
  rw [dbInsert, dbQuery, if_pos rfl]

/-- C9: save_chunk followed by load_chunk at the same coordinates and LOD
returns the chunk bit-for-bit: the height array round-trips exactly, and
so do the flow-accumulation array (when present) and the biome bytes,
given the zstd round-trip contract. -/
theorem save_load_roundtrip (enc : List Nat → List Nat)
    (dec : List Nat → Option (List Nat)) (hdec : ∀ b, dec (enc b) = some b)
    (now : Int) (db : ChunkTable) (chunk : ChunkB)
    (hh : ∀ v ∈ chunk.heights, v < 4294967296)
    (hf : ∀ l ∈ chunk.flowAcc, ∀ v ∈ l, v < 4294967296) :
    loadChunk dec (saveChunk enc now db chunk) chunk.coord.1 chunk.coord.2 chunk.lod
      = some chunk := by
  obtain ⟨⟨cx, cz⟩, hts, lodv, fav, biv⟩ := chunk
  simp only at hh hf
  cases fav with
  | none =>
    simp only [saveChunk, loadChunk, Option.map_none]
    rw [dbQuery_dbInsert]
    simp only [hdec, bytesToU32s_flatMap hts hh]
    rfl
  | some fl =>
    have hfl : ∀ v ∈ fl, v < 4294967296 := hf fl rfl
    simp only [saveChunk, loadChunk, Option.map_some]
    rw [dbQuery_dbInsert]
    simp only [hdec, bytesToU32s_flatMap hts hh, bytesToU32s_flatMap fl hfl]
    simp only [Option.map, hdec, bytesToU32s_flatMap fl hfl]

/-- Witness for C9: a chunk with coordinates (1, -2), LOD 3, two height
samples, a flow array, and biome bytes round-trips through the identity
codec. -/
theorem save_load_roundtrip_witness :
    loadChunk some (saveChunk id 99 []
      ⟨(1, -2), [1045220557, 0], 3, some [5, 4294967295], some [7]⟩) 1 (-2) 3
      = some ⟨(1, -2), [1045220557, 0], 3, some [5, 4294967295], some [7]⟩ :=
  save_load_roundtrip id some (fun _ => rfl) 99 []
    ⟨(1, -2), [1045220557, 0], 3, some [5, 4294967295], some [7]⟩
    (by decide) (by decide)

/-- C7: an ApplyBrush request whose op name is not one of raise, lower,
smooth, flatten, erode, noise returns the "Unknown brush type" error, and
the terrain state (chunks and dirty set included) is returned exactly
unchanged. -/
theorem apply_brush_unknown_op (falloff noiseF : ℚ → ℚ → ℚ) (req : BrushRequest)
    (t : TerrainQ)
    (h : req.brushType ∉ (["raise", "lower", "smooth", "flatten", "erode", "noise"] :
      List String)) :
    applyBrushCommand falloff noiseF req t = (.error "Unknown brush type", t) := by
  simp only [List.mem_cons, List.not_mem_nil, or_false, not_or] at h
  obtain ⟨h1, h2, h3, h4, h5, h6⟩ := h
  rw [applyBrushCommand, parseBrushOp, if_neg h1, if_neg h2, if_neg h3, if_neg h4,
    if_neg h5, if_neg h6]

/-- Witness for C7: the op name "carve" is rejected and a one-chunk state
comes back untouched. -/
theorem apply_brush_unknown_op_witness :
    applyBrushCommand (fun _ _ => 1) (fun _ _ => 1)
      ⟨0, 0, 0, 0, 1, 1, "carve"⟩
      ⟨ConfigR.default, [((0, 0), ⟨(0, 0), [0], 0, none, none⟩)], [], [], []⟩
      = (.error "Unknown brush type",
        ⟨ConfigR.default, [((0, 0), ⟨(0, 0), [0], 0, none, none⟩)], [], [], []⟩) :=
  apply_brush_unknown_op (fun _ _ => 1) (fun _ _ => 1)
    ⟨0, 0, 0, 0, 1, 1, "carve"⟩
    ⟨ConfigR.default, [((0, 0), ⟨(0, 0), [0], 0, none, none⟩)], [], [], []⟩
    (by decide)

theorem clamp01_bounds (q : ℚ) : 0 ≤ clamp01 q ∧ clamp01 q ≤ 1 := by
  unfold clamp01
  split_ifs with h1 h2
  · exact ⟨le_refl 0, zero_le_one⟩
  · exact ⟨zero_le_one, le_refl 1⟩
  · exact ⟨not_lt.mp h1, not_lt.mp h2⟩

theorem inRange01_set (hs : List ℚ) (i : Nat) (v : ℚ) (h : InRange01 hs)
    (hv : 0 ≤ v ∧ v ≤ 1) : InRange01 (hs.set i v) := by
  intro q hq
  rcases List.mem_or_eq_of_mem_set hq with hmem | rfl
  · exact h q hmem
  · exact hv

theorem inRange01_getD (hs : List ℚ) (i : Nat) (h : InRange01 hs) :
    0 ≤ hs.getD i 0 ∧ hs.getD i 0 ≤ 1 := by
  rw [List.getD_eq_getElem?_getD]
  cases hget : hs[i]? with
  | none => exact ⟨le_refl 0, zero_le_one⟩
  | some a =>
    obtain ⟨hi, rfl⟩ := List.getElem?_eq_some_iff.mp hget
    exact h _ (List.getElem_mem hi)

theorem foldl_preserve {β α : Type} (P : β → Prop) (f : β → α → β)
    (l : List α) (b : β) (h : P b) (hstep : ∀ b2 a, P b2 → P (f b2 a)) :
    P (l.foldl f b) := by
  induction l generalizing b with
  | nil => exact h
  | cons a l ih => exact ih _ (hstep b a h)

theorem blend_bounds (hv av c : ℚ) (h1 : 0 ≤ hv) (h2 : hv ≤ 1) (h3 : 0 ≤ av)
    (h4 : av ≤ 1) (h5 : 0 ≤ c) (h6 : c ≤ 1) :
    0 ≤ hv * (1 - c) + av * c ∧ hv * (1 - c) + av * c ≤ 1 := by
  constructor <;> nlinarith

theorem coeff_unit_bound (c f : ℚ) (hc0 : 0 ≤ c) (hc1 : c ≤ 1) (hf0 : 0 ≤ f)
    (hf1 : f ≤ 1) : 0 ≤ c * f ∧ c * f ≤ 1 := by
  constructor <;> nlinarith

theorem sumCount_fold_bounds (hs : List ℚ) (h : InRange01 hs)
    (f : Int × Int → Nat) (L : List (Int × Int)) :
    0 ≤ (L.foldl (fun (sc : ℚ × Nat) p =>
        if f p < hs.length then (sc.1 + hs.getD (f p) 0, sc.2 + 1) else sc)
        ((0 : ℚ), (0 : Nat))).1 ∧
      (L.foldl (fun (sc : ℚ × Nat) p =>
        if f p < hs.length then (sc.1 + hs.getD (f p) 0, sc.2 + 1) else sc)
        ((0 : ℚ), (0 : Nat))).1 ≤
      ((L.foldl (fun (sc : ℚ × Nat) p =>
        if f p < hs.length then (sc.1 + hs.getD (f p) 0, sc.2 + 1) else sc)
        ((0 : ℚ), (0 : Nat))).2 : ℚ) := by
  apply foldl_preserve (fun (sc : ℚ × Nat) => 0 ≤ sc.1 ∧ sc.1 ≤ (sc.2 : ℚ))
  · constructor <;> simp
  · intro sc p hP
    dsimp only
    split
    · have hb := inRange01_getD hs (f p) h
      refine ⟨add_nonneg hP.1 hb.1, ?_⟩
      push_cast
      linarith [hP.2, hb.2]
    · exact hP

theorem calcAverage_bounds (hs : List ℚ) (x z k vc : Nat) (h : InRange01 hs) :
    0 ≤ calcAverage hs x z k vc ∧ calcAverage hs x z k vc ≤ 1 := by
  unfold calcAverage
  have key := sumCount_fold_bounds hs h
    (fun p => (min (max ((z : Int) + p.1) 0) ((vc : Int) - 1)).toNat * vc +
      (min (max ((x : Int) + p.2) 0) ((vc : Int) - 1)).toNat)
    ((kernelOffsets k).flatMap fun dzo => (kernelOffsets k).map fun dxo => (dzo, dxo))
  dsimp only
  split
  · rename_i hcount
    have hpos : (0 : ℚ) < _ := Nat.cast_pos.mpr hcount
    exact ⟨div_nonneg key.1 (le_of_lt hpos), (div_le_one hpos).mpr key.2⟩
  · exact inRange01_getD hs _ h

theorem applyRaise_range (falloff : ℚ → ℚ → ℚ) (chunk : ChunkQ)
    (h : InRange01 chunk.heights) (cx cz radius strength : ℚ) (vc : Nat) :
    InRange01 (applyRaise falloff chunk cx cz radius strength vc).heights := by
  simp only [applyRaise]
  apply foldl_preserve InRange01 _ _ _ h
  intro hs2 zx hP
  dsimp only
  split
  · exact inRange01_set _ _ _ hP (clamp01_bounds _)
  · exact hP

theorem applyNoise_range (falloff noiseF : ℚ → ℚ → ℚ) (chunk : ChunkQ)
    (h : InRange01 chunk.heights) (cx cz radius scale strength : ℚ) (vc : Nat) :
    InRange01 (applyNoise falloff noiseF chunk cx cz radius scale strength vc).heights := by
  simp only [applyNoise]
  apply foldl_preserve InRange01 _ _ _ h
  intro hs2 zx hP
  dsimp only
  split
  · exact inRange01_set _ _ _ hP (clamp01_bounds _)
  · exact hP

theorem applyErode_range (falloff : ℚ → ℚ → ℚ)
    (hf : ∀ d r, 0 ≤ falloff d r ∧ falloff d r ≤ 1) (chunk : ChunkQ)
    (h : InRange01 chunk.heights) (cx cz radius : ℚ) (n vc : Nat) :
    InRange01 (applyErode falloff chunk cx cz radius n vc).heights := by
  simp only [applyErode]
  apply foldl_preserve InRange01 _ _ _ h
  intro hs2 zx hP
  dsimp only
  split
  · have hfb := hf (((zx.2 : ℚ) - cx) * ((zx.2 : ℚ) - cx) +
      ((zx.1 : ℚ) - cz) * ((zx.1 : ℚ) - cz)) radius
    have hc := coeff_unit_bound (mkRat 3 10) _ (by decide) (by decide) hfb.1 hfb.2
    have hv := inRange01_getD hs2 (zx.1 * vc + zx.2) hP
    have ha := calcAverage_bounds hs2 zx.2 zx.1 2 vc hP
    exact inRange01_set _ _ _ hP (blend_bounds _ _ _ hv.1 hv.2 ha.1 ha.2 hc.1 hc.2)
  · exact hP

theorem applySmooth_range (falloff : ℚ → ℚ → ℚ)
    (hf : ∀ d r, 0 ≤ falloff d r ∧ falloff d r ≤ 1) (chunk : ChunkQ)
    (h : InRange01 chunk.heights) (cx cz radius strength : ℚ)
    (hs0 : 0 ≤ strength) (hs1 : strength ≤ 1) (vc : Nat) :
    InRange01 (applySmooth falloff chunk cx cz radius strength vc).heights := by
  simp only [applySmooth]
  apply foldl_preserve InRange01 _ _ _ h
  intro hs2 zx hP
  dsimp only
  split
  · have hfb := hf (((zx.2 : ℚ) - cx) * ((zx.2 : ℚ) - cx) +
      ((zx.1 : ℚ) - cz) * ((zx.1 : ℚ) - cz)) radius
    have hc := coeff_unit_bound strength _ hs0 hs1 hfb.1 hfb.2
    have hv := inRange01_getD chunk.heights (zx.1 * vc + zx.2) h
    have ha := calcAverage_bounds chunk.heights zx.2 zx.1 1 vc h
    exact inRange01_set _ _ _ hP (blend_bounds _ _ _ hv.1 hv.2 ha.1 ha.2 hc.1 hc.2)
  · exact hP

theorem applyFlatten_range (falloff : ℚ → ℚ → ℚ)
    (hf : ∀ d r, 0 ≤ falloff d r ∧ falloff d r ≤ 1) (chunk : ChunkQ)
    (h : InRange01 chunk.heights) (cx cz radius strength target : ℚ)
    (hs0 : 0 ≤ strength) (hs1 : strength ≤ 1) (ht0 : 0 ≤ target) (ht1 : target ≤ 1)
    (vc : Nat) :
    InRange01 (applyFlatten falloff chunk cx cz radius strength target vc).heights := by
  simp only [applyFlatten]
  apply foldl_preserve InRange01 _ _ _ h
  intro hs2 zx hP
  dsimp only
  split
  · have hfb := hf (((zx.2 : ℚ) - cx) * ((zx.2 : ℚ) - cx) +
      ((zx.1 : ℚ) - cz) * ((zx.1 : ℚ) - cz)) radius
    have hc := coeff_unit_bound strength _ hs0 hs1 hfb.1 hfb.2
    have hv := inRange01_getD hs2 (zx.1 * vc + zx.2) hP
    exact inRange01_set _ _ _ hP (blend_bounds _ _ _ hv.1 hv.2 ht0 ht1 hc.1 hc.2)
  · exact hP

/-- C4 (amended): Raise, Lower, and Noise clamp every write and Erode
blends with a fixed coefficient in [0, 0.3], so they keep all heights in
[0, 1] for every center, radius, strength and falloff satisfying the
Gaussian facts; in particular iterating Raise any number of times at the
same point stays in [0, 1].  Smooth and Flatten do not clamp and need
strength in [0, 1] (and for Flatten a target in [0, 1]). -/
theorem apply_brush_preserves_range (falloff noiseF : ℚ → ℚ → ℚ)
    (hG : GaussFacts falloff) (chunk : ChunkQ) (hchunk : InRange01 chunk.heights)
    (cx cz radius strength : ℚ) (op : BrushOp) (vc : Nat)
    (hpre : BrushPrecondition op strength) :
    InRange01 (applyBrush falloff noiseF chunk cx cz radius strength op vc).heights ∧
    ∀ n : Nat,
      InRange01 ((fun c => applyRaise falloff c cx cz radius strength vc)^[n] chunk).heights := by
  constructor
  · cases op with
    | raise => exact applyRaise_range falloff chunk hchunk cx cz radius strength vc
    | lower =>
      simp only [applyBrush, applyLower]
      exact applyRaise_range falloff chunk hchunk cx cz radius (-strength) vc
    | smooth =>
      exact applySmooth_range falloff hG.2 chunk hchunk cx cz radius strength
        hpre.1 hpre.2 vc
    | flatten t =>
      exact applyFlatten_range falloff hG.2 chunk hchunk cx cz radius strength t
        hpre.1.1 hpre.1.2 hpre.2.1 hpre.2.2 vc
    | erode n => exact applyErode_range falloff hG.2 chunk hchunk cx cz radius n vc
    | noiseAdd scale ns =>
      exact applyNoise_range falloff noiseF chunk hchunk cx cz radius scale ns vc
  · intro n
    induction n with
    | zero => simpa using hchunk
    | succ n ih =>
      rw [Function.iterate_succ_apply']
      exact applyRaise_range falloff _ ih cx cz radius strength vc

/-- Witness for the amended C4 at a concrete input: Raise with the
constant-one falloff on a one-sample chunk. -/
theorem apply_brush_preserves_range_witness :
    InRange01 ((applyBrush (fun _ _ => 1) (fun _ _ => 1)
      ⟨(0, 0), [0], 0, none, none⟩ 0 0 1 1 .raise 1).heights) ∧
    ∀ n : Nat, InRange01
      (((fun c => applyRaise (fun _ _ => 1) c 0 0 1 1 1)^[n])
        ⟨(0, 0), [0], 0, none, none⟩).heights :=
  apply_brush_preserves_range (fun _ _ => 1) (fun _ _ => 1)
    ⟨fun _ => rfl, fun _ _ => ⟨zero_le_one, le_refl 1⟩⟩ ⟨(0, 0), [0], 0, none, none⟩ (by decide)
    0 0 1 1 .raise 1 trivial

/-- C4 counterexample: the claim as stated is false.  Flatten neither
clamps its writes nor restricts its target: flattening a chunk at height
0.5 toward target 2 with strength 1 and radius 1 writes the height 2,
outside [0, 1], even though the pre-brush heights lie in [0, 1] and the
falloff satisfies the Gaussian facts. -/
theorem brush_range_claim_false :
    ¬ (∀ falloff noiseF : ℚ → ℚ → ℚ, GaussFacts falloff →
      ∀ (chunk : ChunkQ) (cx cz radius strength : ℚ) (op : BrushOp) (vc : Nat),
        InRange01 chunk.heights →
        InRange01 (applyBrush falloff noiseF chunk cx cz radius strength op vc).heights) := by
  intro hcl
  have hres := hcl (fun _ _ => 1) (fun _ _ => 1) ⟨fun _ => rfl, fun _ _ => ⟨zero_le_one, le_refl 1⟩⟩
    ⟨(0, 0), [mkRat 1 2], 0, none, none⟩ 0 0 1 1 (.flatten 2) 1 (by decide)
  have hev : (applyBrush (fun _ _ => 1) (fun _ _ => 1)
      ⟨(0, 0), [mkRat 1 2], 0, none, none⟩ 0 0 1 1 (.flatten 2) 1).heights = [2] := by
    decide
  rw [hev] at hres
  exact absurd (hres 2 (List.mem_singleton.mpr rfl)).2 (by decide)

theorem d8ScanAcc_spec (sl : Nat → ℚ) (inbP : Nat → Prop) [DecidablePred inbP]
    (k : Nat) :
    (d8ScanAcc sl inbP k = ((0 : ℚ), 255) ∧ ∀ d < k, inbP d → sl d ≤ 0) ∨
    ((d8ScanAcc sl inbP k).2 < k ∧ inbP (d8ScanAcc sl inbP k).2 ∧
      sl (d8ScanAcc sl inbP k).2 = (d8ScanAcc sl inbP k).1 ∧
      0 < (d8ScanAcc sl inbP k).1 ∧
      (∀ d < k, inbP d → sl d ≤ (d8ScanAcc sl inbP k).1) ∧
      ∀ d < (d8ScanAcc sl inbP k).2, inbP d → sl d < (d8ScanAcc sl inbP k).1) := by
  induction k with
  | zero => exact Or.inl ⟨rfl, fun d hd => absurd hd (Nat.not_lt_zero d)⟩
  | succ k ih =>
    have hstep : d8ScanAcc sl inbP (k + 1) =
        (if inbP k then
          (if (d8ScanAcc sl inbP k).1 < sl k then (sl k, k) else d8ScanAcc sl inbP k)
        else d8ScanAcc sl inbP k) := by
      rw [d8ScanAcc, List.range_succ, List.foldl_append, List.foldl_cons, List.foldl_nil]
      rfl
    by_cases hinb : inbP k
    · by_cases hlt : (d8ScanAcc sl inbP k).1 < sl k
      · rw [hstep, if_pos hinb, if_pos hlt]
        rcases ih with ⟨heq, hall⟩ | ⟨hb, hbi, hslb, hpos, hall, hfirst⟩
        · refine Or.inr ⟨Nat.lt_succ_self k, hinb, rfl, ?_, ?_, ?_⟩
          · rw [heq] at hlt
            exact hlt
          · intro d hd hdi
            rcases Nat.lt_succ_iff_lt_or_eq.mp hd with hdk | rfl
            · have := hall d hdk hdi
              rw [heq] at hlt
              exact le_trans this (le_of_lt hlt)
            · exact le_refl (sl d)
          · intro d hd hdi
            have := hall d hd hdi
            rw [heq] at hlt
            exact lt_of_le_of_lt this hlt
        · refine Or.inr ⟨Nat.lt_succ_self k, hinb, rfl, lt_trans hpos hlt, ?_, ?_⟩
          · intro d hd hdi
            rcases Nat.lt_succ_iff_lt_or_eq.mp hd with hdk | rfl
            · exact le_trans (hall d hdk hdi) (le_of_lt hlt)
            · exact le_refl (sl d)
          · intro d hd hdi
            exact lt_of_le_of_lt (hall d hd hdi) hlt
      · rw [hstep, if_pos hinb, if_neg hlt]
        rcases ih with ⟨heq, hall⟩ | ⟨hb, hbi, hslb, hpos, hall, hfirst⟩
        · refine Or.inl ⟨heq, ?_⟩
          intro d hd hdi
          rcases Nat.lt_succ_iff_lt_or_eq.mp hd with hdk | rfl
          · exact hall d hdk hdi
          · rw [heq] at hlt
            exact not_lt.mp hlt
        · refine Or.inr ⟨Nat.lt_succ_of_lt hb, hbi, hslb, hpos, ?_, hfirst⟩
          intro d hd hdi
          rcases Nat.lt_succ_iff_lt_or_eq.mp hd with hdk | rfl
          · exact hall d hdk hdi
          · exact not_lt.mp hlt
    · rw [hstep, if_neg hinb]
      rcases ih with ⟨heq, hall⟩ | ⟨hb, hbi, hslb, hpos, hall, hfirst⟩
      · refine Or.inl ⟨heq, ?_⟩
        intro d hd hdi
        rcases Nat.lt_succ_iff_lt_or_eq.mp hd with hdk | rfl
        · exact hall d hdk hdi
        · exact absurd hdi hinb
      · refine Or.inr ⟨Nat.lt_succ_of_lt hb, hbi, hslb, hpos, ?_, hfirst⟩
        intro d hd hdi
        rcases Nat.lt_succ_iff_lt_or_eq.mp hd with hdk | rfl
        · exact hall d hdk hdi
        · exact absurd hdi hinb

theorem flowDirCell_eq_scan (hs : List ℚ) (w h x z : Nat) :
    flowDirCell hs w h x z =
      (d8ScanAcc (fun d => hs.getD (z * w + x) 0 - hs.getD (d8NeighborIdx w x z d) 0)
        (fun d => d8InBounds w h x z d) 8).2 := rfl

/-- C6: calculate_flow_direction assigns 255 (no flow) exactly when no
in-bounds 8-neighbor is strictly lower, and otherwise the first direction
in the scan order E, SE, S, SW, W, NW, N, NE whose neighbor attains the
maximal positive height drop: the chosen direction has a positive drop
that no direction beats and that every earlier in-bounds direction
misses strictly. -/
theorem flow_direction_steepest_first (hs : List ℚ) (w h x z : Nat)
    (_hx : x < w) (_hz : z < h) :
    (flowDirCell hs w h x z = 255 ∧
      ∀ d < 8, d8InBounds w h x z d → d8Slope hs w x z d ≤ 0) ∨
    (flowDirCell hs w h x z < 8 ∧ d8InBounds w h x z (flowDirCell hs w h x z) ∧
      0 < d8Slope hs w x z (flowDirCell hs w h x z) ∧
      (∀ d < 8, d8InBounds w h x z d →
        d8Slope hs w x z d ≤ d8Slope hs w x z (flowDirCell hs w h x z)) ∧
      ∀ d < flowDirCell hs w h x z, d8InBounds w h x z d →
        d8Slope hs w x z d < d8Slope hs w x z (flowDirCell hs w h x z)) := by
  rw [flowDirCell_eq_scan]
  rcases d8ScanAcc_spec
      (fun d => hs.getD (z * w + x) 0 - hs.getD (d8NeighborIdx w x z d) 0)
      (fun d => d8InBounds w h x z d) 8 with ⟨heq, hall⟩ | ⟨hb, hbi, hslb, hpos, hall, hfirst⟩
  · left
    rw [heq]
    exact ⟨rfl, hall⟩
  · right
    refine ⟨hb, hbi, ?_, ?_, ?_⟩
    · unfold d8Slope
      rw [hslb]
      exact hpos
    · intro d hd hdi
      unfold d8Slope
      rw [hslb]
      exact hall d hd hdi
    · intro d hd hdi
      unfold d8Slope
      rw [hslb]
      exact hfirst d hd hdi

/-- Witness for C6 on a concrete 2x2 grid. -/
theorem flow_direction_steepest_first_witness :
    (flowDirCell [1, mkRat 1 2, mkRat 1 4, 1] 2 2 0 0 = 255 ∧
      ∀ d < 8, d8InBounds 2 2 0 0 d → d8Slope [1, mkRat 1 2, mkRat 1 4, 1] 2 0 0 d ≤ 0) ∨
    (flowDirCell [1, mkRat 1 2, mkRat 1 4, 1] 2 2 0 0 < 8 ∧
      d8InBounds 2 2 0 0 (flowDirCell [1, mkRat 1 2, mkRat 1 4, 1] 2 2 0 0) ∧
      0 < d8Slope [1, mkRat 1 2, mkRat 1 4, 1] 2 0 0
        (flowDirCell [1, mkRat 1 2, mkRat 1 4, 1] 2 2 0 0) ∧
      (∀ d < 8, d8InBounds 2 2 0 0 d →
        d8Slope [1, mkRat 1 2, mkRat 1 4, 1] 2 0 0 d ≤
          d8Slope [1, mkRat 1 2, mkRat 1 4, 1] 2 0 0
            (flowDirCell [1, mkRat 1 2, mkRat 1 4, 1] 2 2 0 0)) ∧
      ∀ d < flowDirCell [1, mkRat 1 2, mkRat 1 4, 1] 2 2 0 0, d8InBounds 2 2 0 0 d →
        d8Slope [1, mkRat 1 2, mkRat 1 4, 1] 2 0 0 d <
          d8Slope [1, mkRat 1 2, mkRat 1 4, 1] 2 0 0
            (flowDirCell [1, mkRat 1 2, mkRat 1 4, 1] 2 2 0 0)) :=
  flow_direction_steepest_first [1, mkRat 1 2, mkRat 1 4, 1] 2 2 0 0
    (by decide) (by decide)

theorem getD_set_eq_of_lt {α : Type} (l : List α) (n : Nat) (v d : α)
    (hn : n < l.length) : (l.set n v).getD n d = v := by
  simp [List.getD_eq_getElem?_getD, List.getElem?_set, hn]

theorem getD_set_ne {α : Type} (l : List α) (n m : Nat) (v d : α) (h : n ≠ m) :
    (l.set n v).getD m d = l.getD m d := by
  simp [List.getD_eq_getElem?_getD, List.getElem?_set, h]

theorem grid_length {α : Type} (g : Nat → Nat → α) (w h : Nat) :
    ((List.range h).flatMap fun zz => (List.range w).map fun xx => g xx zz).length
      = h * w := by
  rw [List.length_flatMap]
  have hmap : (List.range h).map
      (List.length ∘ fun zz => (List.range w).map fun xx => g xx zz) =
      List.replicate h w := by
    rw [show (List.length ∘ fun zz => (List.range w).map fun xx => g xx zz) =
      Function.const Nat w from ?_, List.map_const, List.length_range]
    funext zz
    simp
  rw [hmap, List.sum_replicate, smul_eq_mul]

theorem grid_index_lt (w x z h : Nat) (hx : x < w) (hz : z < h) :
    z * w + x < h * w := by
  calc z * w + x < z * w + w := Nat.add_lt_add_left hx _
  _ = (z + 1) * w := by ring
  _ ≤ h * w := Nat.mul_le_mul_right w hz

theorem flatMap_grid_getD {α : Type} (g : Nat → Nat → α) (w h x z : Nat)
    (hx : x < w) (hz : z < h) (dflt : α) :
    ((List.range h).flatMap fun zz => (List.range w).map fun xx => g xx zz).getD
      (z * w + x) dflt = g x z := by
  induction h with
  | zero => exact absurd hz (Nat.not_lt_zero z)
  | succ h ih =>
    rw [List.range_succ, List.flatMap_append, List.flatMap_cons, List.flatMap_nil,
      List.append_nil, List.getD_eq_getElem?_getD, List.getElem?_append]
    rw [grid_length]
    rcases Nat.lt_succ_iff_lt_or_eq.mp hz with hzh | rfl
    · rw [if_pos (grid_index_lt w x z h hx hzh)]
      rw [List.getD_eq_getElem?_getD] at ih
      exact ih hzh
    · have hge : ¬ (z * w + x < z * w) := by omega
      rw [if_neg hge, Nat.add_sub_cancel_left, List.getElem?_map,
        List.getElem?_range hx]
      rfl

theorem grid_keys (w h : Nat) :
    ((List.range h).flatMap fun zz => (List.range w).map fun xx => zz * w + xx)
      = List.range (h * w) := by
  induction h with
  | zero => simp
  | succ h ih =>
    rw [List.range_succ, List.flatMap_append, List.flatMap_cons, List.flatMap_nil,
      List.append_nil, ih, Nat.succ_mul, List.range_add]

theorem cellsKeys_perm (hs : List ℚ) (w h : Nat) :
    ((cellsByDescHeight hs w h).map (cellKey w)).Perm (List.range (h * w)) := by
  have h1 : ((cellsByDescHeight hs w h).map (cellKey w)).Perm
      ((((List.range h).flatMap fun z =>
        (List.range w).map fun x => (x, z, hs.getD (z * w + x) 0))).map (cellKey w)) :=
    (List.mergeSort_perm _ _).map (cellKey w)
  have h2 : (((List.range h).flatMap fun z =>
      (List.range w).map fun x => (x, z, hs.getD (z * w + x) 0))).map (cellKey w)
      = List.range (h * w) := by
    rw [List.map_flatMap]
    rw [← grid_keys w h]
    congr 1
    funext z
    rw [List.map_map]
    rfl
  rw [h2] at h1
  exact h1

theorem cells_mem (hs : List ℚ) (w h : Nat) :
    ∀ c ∈ cellsByDescHeight hs w h,
      c.1 < w ∧ c.2.1 < h ∧ c.2.2 = hs.getD (cellKey w c) 0 := by
  intro c hc
  have hmem := (List.mergeSort_perm _ _).mem_iff.mp hc
  obtain ⟨z, hz, hcz⟩ := List.mem_flatMap.mp hmem
  obtain ⟨x, hxw, rfl⟩ := List.mem_map.mp hcz
  exact ⟨List.mem_range.mp hxw, List.mem_range.mp hz, rfl⟩

theorem cells_sorted (hs : List ℚ) (w h : Nat) :
    (cellsByDescHeight hs w h).Pairwise fun a b => b.2.2 ≤ a.2.2 := by
  have hsorted := @List.sorted_mergeSort (Nat × Nat × ℚ)
    (fun (a b : Nat × Nat × ℚ) => decide (b.2.2 ≤ a.2.2))
    (fun a b c hab hbc => by
      simp only [decide_eq_true_eq] at hab hbc ⊢
      exact le_trans hbc hab)
    (fun a b => by
      simp only [Bool.or_eq_true, decide_eq_true_eq]
      exact le_total b.2.2 a.2.2)
    ((List.range h).flatMap fun z =>
      (List.range w).map fun x => (x, z, hs.getD (z * w + x) 0))
  exact hsorted.imp fun hab => of_decide_eq_true hab

theorem fd_strict_descent (hs : List ℚ) (w h x z : Nat) (hx : x < w) (hz : z < h)
    (hlt : (calcFlowDirection hs w h).getD (z * w + x) 255 < 8) :
    d8InBounds w h x z ((calcFlowDirection hs w h).getD (z * w + x) 255) ∧
      hs.getD (d8NeighborIdx w x z ((calcFlowDirection hs w h).getD (z * w + x) 255)) 0
        < hs.getD (z * w + x) 0 := by
  have hget : (calcFlowDirection hs w h).getD (z * w + x) 255 = flowDirCell hs w h x z :=
    flatMap_grid_getD (fun xx zz => flowDirCell hs w h xx zz) w h x z hx hz 255
  rw [hget] at hlt ⊢
  rw [flowDirCell_eq_scan] at hlt ⊢
  rcases d8ScanAcc_spec
      (fun d => hs.getD (z * w + x) 0 - hs.getD (d8NeighborIdx w x z d) 0)
      (fun d => d8InBounds w h x z d) 8 with ⟨heq, _⟩ | ⟨_, hbi, hslb, hpos, _, _⟩
  · rw [heq] at hlt
    exact absurd hlt (by norm_num)
  · refine ⟨hbi, ?_⟩
    rw [← hslb] at hpos
    linarith [hpos]

theorem sum_getD_single_le (acc : List ℚ) (K : List Nat)
    (hpos : ∀ k ∈ K, 0 ≤ acc.getD k 0) (n : Nat) (hn : n ∈ K) :
    acc.getD n 0 ≤ (K.map fun k => acc.getD k 0).sum := by
  apply List.single_le_sum
  · intro q hq
    obtain ⟨k, hk, rfl⟩ := List.mem_map.mp hq
    exact hpos k hk
  · exact List.mem_map_of_mem _ hn

theorem sum_getD_set_mem (acc : List ℚ) (K : List Nat) (n : Nat) (v : ℚ)
    (hn : n < acc.length) (hnod : K.Nodup) (hmem : n ∈ K) :
    (K.map fun k => (acc.set n v).getD k 0).sum
      = (K.map fun k => acc.getD k 0).sum + v - acc.getD n 0 := by
  induction K with
  | nil => exact absurd hmem (List.not_mem_nil n)
  | cons k K ih =>
    rw [List.map_cons, List.map_cons, List.sum_cons, List.sum_cons]
    rcases List.mem_cons.mp hmem with heq | hmem2
    · subst heq
      have hknot : n ∉ K := (List.nodup_cons.mp hnod).1
      have hrest : (K.map fun k2 => (acc.set n v).getD k2 0)
          = K.map fun k2 => acc.getD k2 0 := by
        apply List.map_congr_left
        intro k2 hk2
        have hne : n ≠ k2 := fun he => hknot (he ▸ hk2)
        exact getD_set_ne acc n k2 v 0 hne
      rw [hrest, getD_set_eq_of_lt acc n v 0 hn]
      ring
    · have hkn : n ≠ k := by
        intro he
        exact (List.nodup_cons.mp hnod).1 (he ▸ hmem2)
      rw [getD_set_ne acc n k v 0 hkn, ih (List.nodup_cons.mp hnod).2 hmem2]
      ring

theorem accumStep_eq_of_flow (w h : Nat) (fd : List Nat) (acc : List ℚ)
    (c : Nat × Nat × ℚ) (hd : fd.getD (cellKey w c) 255 < 8)
    (hb : d8InBounds w h c.1 c.2.1 (fd.getD (cellKey w c) 255)) :
    accumStep w h fd acc c =
      acc.set (d8NeighborIdx w c.1 c.2.1 (fd.getD (cellKey w c) 255))
        (acc.getD (d8NeighborIdx w c.1 c.2.1 (fd.getD (cellKey w c) 255)) 0 +
          acc.getD (cellKey w c) 0) := by
  simp only [accumStep]
  rw [show c.2.1 * w + c.1 = cellKey w c from rfl, if_pos hd,
    if_pos (show 0 ≤ (c.1 : Int) + dx8 (fd.getD (cellKey w c) 255) ∧
      (c.1 : Int) + dx8 (fd.getD (cellKey w c) 255) < (w : Int) ∧
      0 ≤ (c.2.1 : Int) + dz8 (fd.getD (cellKey w c) 255) ∧
      (c.2.1 : Int) + dz8 (fd.getD (cellKey w c) 255) < (h : Int) from hb)]
  rfl

theorem accumStep_eq_of_noflow (w h : Nat) (fd : List Nat) (acc : List ℚ)
    (c : Nat × Nat × ℚ) (hd : ¬ fd.getD (cellKey w c) 255 < 8) :
    accumStep w h fd acc c = acc := by
  simp only [accumStep]
  rw [show c.2.1 * w + c.1 = cellKey w c from rfl, if_neg hd]

theorem d8NeighborIdx_lt (w h x z d : Nat) (hb : d8InBounds w h x z d) :
    d8NeighborIdx w x z d < w * h := by
  obtain ⟨h1, h2, h3, h4⟩ := hb
  have hxn : ((x : Int) + dx8 d).toNat < w := by omega
  have hzn : ((z : Int) + dz8 d).toNat < h := by omega
  have hgrid := grid_index_lt w (((x : Int) + dx8 d).toNat) (((z : Int) + dz8 d).toNat)
    h hxn hzn
  rw [Nat.mul_comm w h]
  exact hgrid

theorem accum_fold_bounds (w h : Nat) (hs : List ℚ) (fd : List Nat) (B : ℚ)
    (hfd : ∀ x z, x < w → z < h → fd.getD (z * w + x) 255 < 8 →
      d8InBounds w h x z (fd.getD (z * w + x) 255) ∧
        hs.getD (d8NeighborIdx w x z (fd.getD (z * w + x) 255)) 0
          < hs.getD (z * w + x) 0) :
    ∀ (L : List (Nat × Nat × ℚ)) (acc : List ℚ),
      acc.length = w * h →
      (∀ j < w * h, 1 ≤ acc.getD j 0) →
      (L.map fun c => acc.getD (cellKey w c) 0).sum ≤ B →
      (∀ j < w * h, j ∉ L.map (cellKey w) → acc.getD j 0 ≤ B) →
      (∀ j < w * h, j ∉ L.map (cellKey w) → ∀ c ∈ L, c.2.2 ≤ hs.getD j 0) →
      L.Pairwise (fun a b => b.2.2 ≤ a.2.2) →
      (L.map (cellKey w)).Nodup →
      (∀ c ∈ L, c.1 < w ∧ c.2.1 < h ∧ c.2.2 = hs.getD (cellKey w c) 0) →
      ∀ j < w * h, 1 ≤ (L.foldl (accumStep w h fd) acc).getD j 0 ∧
        (L.foldl (accumStep w h fd) acc).getD j 0 ≤ B := by
  intro L
  induction L with
  | nil =>
    intro acc _ h1 _ h3 _ _ _ _ j hj
    exact ⟨h1 j hj, h3 j hj (List.not_mem_nil j)⟩
  | cons c L2 ih =>
    intro acc hlen h1 h2 h3 h4 hsort hnod hmem j hj
    obtain ⟨hxw, hzh, hcv⟩ := hmem c (List.mem_cons_self c L2)
    have hkclt : cellKey w c < w * h := by
      have h0 := grid_index_lt w c.1 c.2.1 h hxw hzh
      rw [Nat.mul_comm w h]
      exact h0
    rw [List.map_cons, List.sum_cons] at h2
    have hsum2nonneg : 0 ≤ (L2.map fun c2 => acc.getD (cellKey w c2) 0).sum := by
      apply List.sum_nonneg
      intro q hq
      obtain ⟨c2, hc2, rfl⟩ := List.mem_map.mp hq
      obtain ⟨ha2, hb2, _⟩ := hmem c2 (List.mem_cons_of_mem c hc2)
      have hlt2 : cellKey w c2 < w * h := by
        have h0 := grid_index_lt w c2.1 c2.2.1 h ha2 hb2
        rw [Nat.mul_comm w h]
        exact h0
      linarith [h1 (cellKey w c2) hlt2]
    have hnodup2 : (L2.map (cellKey w)).Nodup := by
      rw [List.map_cons] at hnod
      exact (List.nodup_cons.mp hnod).2
    have hkcnot : cellKey w c ∉ L2.map (cellKey w) := by
      rw [List.map_cons] at hnod
      exact (List.nodup_cons.mp hnod).1
    have hsort2 := hsort.of_cons
    have hmem2 : ∀ c2 ∈ L2, c2.1 < w ∧ c2.2.1 < h ∧ c2.2.2 = hs.getD (cellKey w c2) 0 :=
      fun c2 hc2 => hmem c2 (List.mem_cons_of_mem c hc2)
    have h4n : ∀ j2 < w * h, j2 ∉ L2.map (cellKey w) → ∀ c2 ∈ L2,
        c2.2.2 ≤ hs.getD j2 0 := by
      intro j2 hj2 hno c2 hc2
      by_cases hjk : j2 = cellKey w c
      · subst hjk
        have hrel := List.rel_of_pairwise_cons hsort hc2
        rw [← hcv]
        exact hrel
      · have hnotin : j2 ∉ (c :: L2).map (cellKey w) := by
          rw [List.map_cons]
          intro hin
          rcases List.mem_cons.mp hin with he | hin2
          · exact hjk he
          · exact hno hin2
        exact h4 j2 hj2 hnotin c2 (List.mem_cons_of_mem c hc2)
    by_cases hd : fd.getD (cellKey w c) 255 < 8
    · obtain ⟨hinb, hlow⟩ := hfd c.1 c.2.1 hxw hzh hd
      rw [show c.2.1 * w + c.1 = cellKey w c from rfl] at hinb hlow
      have hstep := accumStep_eq_of_flow w h fd acc c hd hinb
      have hnlt : d8NeighborIdx w c.1 c.2.1 (fd.getD (cellKey w c) 255) < w * h :=
        d8NeighborIdx_lt w h c.1 c.2.1 _ hinb
      have hne : d8NeighborIdx w c.1 c.2.1 (fd.getD (cellKey w c) 255) ≠ cellKey w c := by
        intro he
        rw [he] at hlow
        exact lt_irrefl _ hlow
      have hnmem : d8NeighborIdx w c.1 c.2.1 (fd.getD (cellKey w c) 255)
          ∈ L2.map (cellKey w) := by
        by_contra hno
        have hnotin : d8NeighborIdx w c.1 c.2.1 (fd.getD (cellKey w c) 255)
            ∉ (c :: L2).map (cellKey w) := by
          rw [List.map_cons]
          intro hin
          rcases List.mem_cons.mp hin with he | hin2
          · exact hne he
          · exact hno hin2
        have hge := h4 _ hnlt hnotin c (List.mem_cons_self c L2)
        rw [hcv] at hge
        exact absurd hlow (not_lt.mpr hge)
      rw [List.foldl_cons, hstep]
      have hlen2 : (acc.set (d8NeighborIdx w c.1 c.2.1 (fd.getD (cellKey w c) 255))
          (acc.getD (d8NeighborIdx w c.1 c.2.1 (fd.getD (cellKey w c) 255)) 0 +
            acc.getD (cellKey w c) 0)).length = w * h := by
        rw [List.length_set]
        exact hlen
      have h1n : ∀ j2 < w * h, 1 ≤ (acc.set
          (d8NeighborIdx w c.1 c.2.1 (fd.getD (cellKey w c) 255))
          (acc.getD (d8NeighborIdx w c.1 c.2.1 (fd.getD (cellKey w c) 255)) 0 +
            acc.getD (cellKey w c) 0)).getD j2 0 := by
        intro j2 hj2
        by_cases hjn : d8NeighborIdx w c.1 c.2.1 (fd.getD (cellKey w c) 255) = j2
        · rw [← hjn, getD_set_eq_of_lt _ _ _ _ (by rw [hlen]; exact hnlt)]
          linarith [h1 _ hnlt, h1 _ hkclt]
        · rw [getD_set_ne _ _ _ _ _ hjn]
          exact h1 j2 hj2
      have hmapmap : ∀ (a : List ℚ), (L2.map fun c2 => a.getD (cellKey w c2) 0)
          = (L2.map (cellKey w)).map fun k => a.getD k 0 := by
        intro a
        rw [List.map_map]
        rfl
      have h2n : ((L2.map fun c2 => (acc.set
          (d8NeighborIdx w c.1 c.2.1 (fd.getD (cellKey w c) 255))
          (acc.getD (d8NeighborIdx w c.1 c.2.1 (fd.getD (cellKey w c) 255)) 0 +
            acc.getD (cellKey w c) 0)).getD (cellKey w c2) 0).sum ≤ B) := by
        rw [hmapmap]
        rw [sum_getD_set_mem acc (L2.map (cellKey w)) _ _ (by rw [hlen]; exact hnlt)
          hnodup2 hnmem]
        rw [← hmapmap]
        linarith [h2]
      have h3n : ∀ j2 < w * h, j2 ∉ L2.map (cellKey w) → (acc.set
          (d8NeighborIdx w c.1 c.2.1 (fd.getD (cellKey w c) 255))
          (acc.getD (d8NeighborIdx w c.1 c.2.1 (fd.getD (cellKey w c) 255)) 0 +
            acc.getD (cellKey w c) 0)).getD j2 0 ≤ B := by
        intro j2 hj2 hno
        have hjne : d8NeighborIdx w c.1 c.2.1 (fd.getD (cellKey w c) 255) ≠ j2 :=
          fun he => hno (he ▸ hnmem)
        rw [getD_set_ne _ _ _ _ _ hjne]
        by_cases hjk : j2 = cellKey w c
        · subst hjk
          linarith [h2, hsum2nonneg]
        · have hnotin : j2 ∉ (c :: L2).map (cellKey w) := by
            rw [List.map_cons]
            intro hin
            rcases List.mem_cons.mp hin with he | hin2
            · exact hjk he
            · exact hno hin2
          exact h3 j2 hj2 hnotin
      exact ih _ hlen2 h1n h2n h3n h4n hsort2 hnodup2 hmem2 j hj
    · rw [List.foldl_cons, accumStep_eq_of_noflow w h fd acc c hd]
      have h2n : (L2.map fun c2 => acc.getD (cellKey w c2) 0).sum ≤ B := by
        linarith [h1 (cellKey w c) hkclt, h2]
      have h3n : ∀ j2 < w * h, j2 ∉ L2.map (cellKey w) → acc.getD j2 0 ≤ B := by
        intro j2 hj2 hno
        by_cases hjk : j2 = cellKey w c
        · subst hjk
          linarith [h2, hsum2nonneg]
        · have hnotin : j2 ∉ (c :: L2).map (cellKey w) := by
            rw [List.map_cons]
            intro hin
            rcases List.mem_cons.mp hin with he | hin2
            · exact hjk he
            · exact hno hin2
          exact h3 j2 hj2 hnotin
      exact ih acc hlen h1 h2n h3n h4n hsort2 hnodup2 hmem2 j hj

theorem getD_replicate_of_lt (n m : Nat) (a : ℚ) (h : m < n) :
    (List.replicate n a).getD m 0 = a := by
  simp [List.getD_eq_getElem?_getD, List.getElem?_replicate, h]

theorem cells_length (hs : List ℚ) (w h : Nat) :
    (cellsByDescHeight hs w h).length = h * w := by
  have hp := (cellsKeys_perm hs w h).length_eq
  rw [List.length_map, List.length_range] at hp
  exact hp

theorem cells_key_complete (hs : List ℚ) (w h : Nat) (j : Nat) (hj : j < w * h) :
    j ∈ (cellsByDescHeight hs w h).map (cellKey w) := by
  apply (cellsKeys_perm hs w h).mem_iff.mpr
  rw [List.mem_range, Nat.mul_comm h w]
  exact hj

/-- C5: for the flow-direction field computed from the height buffer, the
flow accumulation assigns every cell a value of at least 1, and no cell
exceeds the total number of cells. -/
theorem flow_accumulation_bounds (hs : List ℚ) (w h : Nat) (j : Nat)
    (hj : j < w * h) :
    1 ≤ (calcFlowAccumulation hs (calcFlowDirection hs w h) w h).getD j 0 ∧
    (calcFlowAccumulation hs (calcFlowDirection hs w h) w h).getD j 0
      ≤ ((w * h : Nat) : ℚ) := by
  rw [calcFlowAccumulation]
  refine accum_fold_bounds w h hs (calcFlowDirection hs w h) ((w * h : Nat) : ℚ)
    (fun x z hx hz hd8 => fd_strict_descent hs w h x z hx hz hd8)
    (cellsByDescHeight hs w h) (List.replicate (w * h) 1)
    (List.length_replicate _ _) ?_ ?_ ?_ ?_ (cells_sorted hs w h)
    ((cellsKeys_perm hs w h).nodup_iff.mpr (List.nodup_range _)) (cells_mem hs w h)
    j hj
  · intro j2 hj2
    rw [getD_replicate_of_lt _ _ _ hj2]
  · have hcongr : ((cellsByDescHeight hs w h).map
        fun c => (List.replicate (w * h) (1 : ℚ)).getD (cellKey w c) 0)
        = (cellsByDescHeight hs w h).map fun _ => (1 : ℚ) := by
      apply List.map_congr_left
      intro c hc
      obtain ⟨ha, hb, _⟩ := cells_mem hs w h c hc
      have hlt : cellKey w c < w * h := by
        have h0 := grid_index_lt w c.1 c.2.1 h ha hb
        rw [Nat.mul_comm w h]
        exact h0
      exact getD_replicate_of_lt _ _ _ hlt
    rw [hcongr, show ((cellsByDescHeight hs w h).map fun _ => (1 : ℚ))
        = List.map (Function.const (Nat × Nat × ℚ) (1 : ℚ)) (cellsByDescHeight hs w h)
        from rfl,
      List.map_const, List.sum_replicate, cells_length, nsmul_eq_mul, mul_one]
    rw [Nat.mul_comm h w]
  · intro j2 hj2 hno
    exact absurd (cells_key_complete hs w h j2 hj2) hno
  · intro j2 hj2 hno
    exact absurd (cells_key_complete hs w h j2 hj2) hno

/-- Witness for C5 on a concrete 2x1 grid. -/
theorem flow_accumulation_bounds_witness :
    1 ≤ (calcFlowAccumulation [mkRat 1 2, mkRat 1 4]
      (calcFlowDirection [mkRat 1 2, mkRat 1 4] 2 1) 2 1).getD 1 0 ∧
    (calcFlowAccumulation [mkRat 1 2, mkRat 1 4]
      (calcFlowDirection [mkRat 1 2, mkRat 1 4] 2 1) 2 1).getD 1 0
      ≤ ((2 * 1 : Nat) : ℚ) :=
  flow_accumulation_bounds [mkRat 1 2, mkRat 1 4] 2 1 1 (by decide)

theorem popMin_eq_none (l : List FCell) : popMin l = none ↔ l = [] := by
  cases l with
  | nil => simp [popMin]
  | cons c rest =>
    simp only [popMin]
    cases hrest : popMin rest with
    | none => simp
    | some pr =>
      obtain ⟨m, r2⟩ := pr
      by_cases hle : c.hgt ≤ m.hgt <;> simp [hle]

theorem popMin_spec : ∀ (l : List FCell) (c : FCell) (rest : List FCell),
    popMin l = some (c, rest) → l.Perm (c :: rest) ∧ ∀ d ∈ l, c.hgt ≤ d.hgt := by
  intro l
  induction l with
  | nil => intro c rest hp; simp [popMin] at hp
  | cons c0 l0 ih =>
    intro c rest hp
    rw [popMin] at hp
    cases hrest : popMin l0 with
    | none =>
      rw [hrest] at hp
      simp only [Option.some.injEq, Prod.mk.injEq] at hp
      obtain ⟨rfl, rfl⟩ := hp
      have hl0 : l0 = [] := (popMin_eq_none l0).mp hrest
      subst hl0
      exact ⟨List.Perm.refl _, by
        intro d hd
        rcases List.mem_cons.mp hd with rfl | hd2
        · exact le_refl _
        · exact absurd hd2 (List.not_mem_nil d)⟩
    | some pr =>
      obtain ⟨m, r2⟩ := pr
      rw [hrest] at hp
      dsimp only at hp
      obtain ⟨hperm0, hmin0⟩ := ih m r2 hrest
      by_cases hle : c0.hgt ≤ m.hgt
      · rw [if_pos hle] at hp
        simp only [Option.some.injEq, Prod.mk.injEq] at hp
        obtain ⟨rfl, rfl⟩ := hp
        refine ⟨List.Perm.refl _, ?_⟩
        intro d hd
        rcases List.mem_cons.mp hd with rfl | hd2
        · exact le_refl _
        · exact le_trans hle (hmin0 d hd2)
      · rw [if_neg hle] at hp
        simp only [Option.some.injEq, Prod.mk.injEq] at hp
        obtain ⟨rfl, rfl⟩ := hp
        constructor
        · exact (hperm0.cons c0).trans (List.Perm.swap _ c0 r2)
        · intro d hd
          rcases List.mem_cons.mp hd with rfl | hd2
          · exact le_of_lt (not_le.mp hle)
          · exact hmin0 d hd2

theorem mem_neighbors8_iff (x z w h : Nat) (p : Nat × Nat) :
    p ∈ neighbors8 x z w h ↔ ∃ d < 8, d8InBounds w h x z d ∧
      p = (((x : Int) + dx8 d).toNat, ((z : Int) + dz8 d).toNat) := by
  rw [neighbors8, List.mem_filterMap]
  constructor
  · rintro ⟨d, hd, hf⟩
    rw [List.mem_range] at hd
    by_cases hb : 0 ≤ (x : Int) + dx8 d ∧ (x : Int) + dx8 d < (w : Int) ∧
        0 ≤ (z : Int) + dz8 d ∧ (z : Int) + dz8 d < (h : Int)
    · rw [if_pos hb] at hf
      simp only [Option.some.injEq] at hf
      exact ⟨d, hd, hb, hf.symm⟩
    · rw [if_neg hb] at hf
      exact absurd hf (Option.noConfusion)
  · rintro ⟨d, hd, hb, rfl⟩
    refine ⟨d, List.mem_range.mpr hd, ?_⟩
    rw [if_pos (show 0 ≤ (x : Int) + dx8 d ∧ (x : Int) + dx8 d < (w : Int) ∧
      0 ≤ (z : Int) + dz8 d ∧ (z : Int) + dz8 d < (h : Int) from hb)]

theorem neighbors8_bounds (x z w h : Nat) (p : Nat × Nat)
    (hp : p ∈ neighbors8 x z w h) : p.1 < w ∧ p.2 < h := by
  obtain ⟨d, _, hb, rfl⟩ := (mem_neighbors8_iff x z w h p).mp hp
  obtain ⟨h1, h2, h3, h4⟩ := hb
  constructor <;> [skip; skip] <;> omega

theorem neighbors8_symm (x z w h : Nat) (hx : x < w) (hz : z < h) (p : Nat × Nat)
    (hp : p ∈ neighbors8 x z w h) : (x, z) ∈ neighbors8 p.1 p.2 w h := by
  obtain ⟨d, hd, hb, rfl⟩ := (mem_neighbors8_iff x z w h p).mp hp
  obtain ⟨h1, h2, h3, h4⟩ := hb
  apply (mem_neighbors8_iff _ _ w h _).mpr
  refine ⟨(d + 4) % 8, by omega, ?_, ?_⟩
  · unfold d8InBounds
    interval_cases d <;> simp [dx8, dz8] at h1 h2 h3 h4 ⊢ <;> omega
  · interval_cases d <;> simp [dx8, dz8] at h1 h2 h3 h4 ⊢ <;> omega

theorem closed_set_mono (closed : List Bool) (idx i : Nat)
    (hi : closed.getD i true = true) :
    (closed.set idx true).getD i true = true := by
  by_cases hii : idx = i
  · subst hii
    by_cases hlt : idx < closed.length
    · rw [getD_set_eq_of_lt _ _ _ _ hlt]
    · rw [List.getD_eq_getElem?_getD, List.getElem?_set]
      rw [if_pos rfl, if_neg hlt]
      rfl
  · rw [getD_set_ne _ _ _ _ _ hii]
    exact hi

theorem count_false_set_true (l : List Bool) :
    ∀ (i : Nat), i < l.length → l.getD i true = false →
    (l.set i true).count false + 1 = l.count false := by
  induction l with
  | nil => intro i hi; simp at hi
  | cons b rest ih =>
    intro i hi hf
    cases i with
    | zero =>
      simp only [List.getD_cons_zero] at hf
      subst hf
      simp [List.count_cons]
    | succ i =>
      simp only [List.getD_cons_succ] at hf
      simp only [List.length_cons, Nat.add_lt_add_iff_right] at hi
      simp only [List.set_cons_succ, List.count_cons]
      have := ih i hi hf
      omega

theorem grid_idx_inj (w x1 z1 x2 z2 : Nat) (h1 : x1 < w) (h2 : x2 < w)
    (he : z1 * w + x1 = z2 * w + x2) : x1 = x2 ∧ z1 = z2 := by
  have e1 : (z1 * w + x1) % w = x1 := by
    rw [Nat.add_comm, Nat.add_mul_mod_self_right, Nat.mod_eq_of_lt h1]
  have e2 : (z2 * w + x2) % w = x2 := by
    rw [Nat.add_comm, Nat.add_mul_mod_self_right, Nat.mod_eq_of_lt h2]
  rw [he, e2] at e1
  refine ⟨e1.symm, ?_⟩
  subst e1
  have hz : z1 * w = z2 * w := by omega
  have hw : 0 < w := lt_of_le_of_lt (Nat.zero_le x2) h2
  exact Nat.eq_of_mul_eq_mul_right hw hz

theorem epsilonQ_nonneg : (0 : ℚ) ≤ epsilonQ := by decide

theorem processNbrs_one (w h cx cz : Nat) (hcx : cx < w) (hcz : cz < h)
    (cellH : ℚ) (opn : List FCell) (closed : List Bool) (hs : List ℚ)
    (p : Nat × Nat) (hpmem : p ∈ neighbors8 cx cz w h)
    (hI : PInv w h cx cz cellH (opn, closed, hs)) :
    PInv w h cx cz cellH (processNbrs w cellH [p] (opn, closed, hs)) ∧
    (processNbrs w cellH [p] (opn, closed, hs)).2.1.getD (p.2 * w + p.1) true = true ∧
    (∀ i, closed.getD i true = true →
      (processNbrs w cellH [p] (opn, closed, hs)).2.1.getD i true = true) ∧
    (∀ c ∈ opn, c ∈ (processNbrs w cellH [p] (opn, closed, hs)).1) ∧
    (processNbrs w cellH [p] (opn, closed, hs)).1.length +
      (processNbrs w cellH [p] (opn, closed, hs)).2.1.count false
      = opn.length + closed.count false := by
  obtain ⟨hpw, hph⟩ := neighbors8_bounds cx cz w h p hpmem
  have hidxlt : p.2 * w + p.1 < w * h := by
    have h0 := grid_index_lt w p.1 p.2 h hpw hph
    rw [Nat.mul_comm w h]
    exact h0
  have hidxc : p.2 * w + p.1 < closed.length := by rw [hI.hclen]; exact hidxlt
  have hidxh : p.2 * w + p.1 < hs.length := by rw [hI.hhlen]; exact hidxlt
  simp only [processNbrs, List.foldl_cons, List.foldl_nil]
  by_cases hcl : closed.getD (p.2 * w + p.1) true = true
  · rw [if_pos hcl]
    exact ⟨hI, hcl, fun i hi => hi, fun c hc => hc, rfl⟩
  · have hclf : closed.getD (p.2 * w + p.1) true = false := by
      cases hb : closed.getD (p.2 * w + p.1) true
      · rfl
      · exact absurd hb hcl
    have hTrueNe : ∀ i, closed.getD i true = true → i ≠ p.2 * w + p.1 := by
      intro i hti he
      rw [he, hclf] at hti
      exact Bool.noConfusion hti
    have hkcne : cz * w + cx ≠ p.2 * w + p.1 := hTrueNe _ hI.hcell.1
    rw [if_neg hcl]
    by_cases hnh : hs.getD (p.2 * w + p.1) 0 < cellH
    · rw [if_pos hnh]
      refine ⟨?_, ?_, ?_, ?_, ?_⟩
      · refine ⟨?_, ?_, ?_, ?_, ?_, ?_, ?_⟩
        · rw [List.length_set]; exact hI.hclen
        · rw [List.length_set]; exact hI.hhlen
        · intro c hc
          rcases List.mem_append.mp hc with hco | hcn
          · obtain ⟨hcw2, hch2, hto, hhv⟩ := hI.hopen c hco
            have hne := hTrueNe _ hto
            refine ⟨hcw2, hch2, closed_set_mono _ _ _ hto, ?_⟩
            rw [getD_set_ne _ _ _ _ _ (fun he => hne he.symm)]
            exact hhv
          · rw [List.mem_singleton.mp hcn]
            refine ⟨hpw, hph, ?_, ?_⟩
            · exact getD_set_eq_of_lt _ _ _ _ hidxc ▸ rfl
            · rw [getD_set_eq_of_lt _ _ _ _ hidxh]
        · intro x2 hx2 z2 hz2 hcl2
          by_cases hi2 : z2 * w + x2 = p.2 * w + p.1
          · obtain ⟨hxe, hze⟩ := grid_idx_inj w x2 z2 p.1 p.2 hx2 hpw hi2
            subst hxe
            subst hze
            right
            refine ⟨(cx, cz), neighbors8_symm cx cz w h hcx hcz p hpmem, ?_, ?_⟩
            · exact closed_set_mono _ _ _ hI.hcell.1
            · rw [getD_set_ne _ _ _ _ _ (fun he => hkcne he.symm), hI.hcell.2,
                getD_set_eq_of_lt _ _ _ _ hidxh]
              linarith [epsilonQ_nonneg]
          · have hcl2o : closed.getD (z2 * w + x2) true = true := by
              rw [getD_set_ne _ _ _ _ _ (fun he => hi2 he.symm)] at hcl2
              exact hcl2
            rcases hI.hlocal x2 hx2 z2 hz2 hcl2o with hbord | ⟨q, hq, hqc, hqle⟩
            · exact Or.inl hbord
            · right
              have hqne := hTrueNe _ hqc
              refine ⟨q, hq, closed_set_mono _ _ _ hqc, ?_⟩
              rw [getD_set_ne _ _ _ _ _ (fun he => hqne he.symm),
                getD_set_ne _ _ _ _ _ (fun he => hi2 he.symm)]
              exact hqle
        · intro x2 hx2 z2 hz2 hbord
          exact closed_set_mono _ _ _ (hI.hborder x2 hx2 z2 hz2 hbord)
        · intro x2 hx2 z2 hz2 hcl2
          by_cases hi2 : z2 * w + x2 = p.2 * w + p.1
          · obtain ⟨hxe, hze⟩ := grid_idx_inj w x2 z2 p.1 p.2 hx2 hpw hi2
            left
            exact ⟨⟨p.1, p.2, cellH + epsilonQ⟩,
              List.mem_append.mpr (Or.inr (List.mem_singleton.mpr rfl)),
              hxe.symm, hze.symm⟩
          · have hcl2o : closed.getD (z2 * w + x2) true = true := by
              rw [getD_set_ne _ _ _ _ _ (fun he => hi2 he.symm)] at hcl2
              exact hcl2
            rcases hI.hfrontier x2 hx2 z2 hz2 hcl2o with ⟨c, hc, hce⟩ | hall | hcc
            · exact Or.inl ⟨c, List.mem_append.mpr (Or.inl hc), hce⟩
            · exact Or.inr (Or.inl fun q hq => closed_set_mono _ _ _ (hall q hq))
            · exact Or.inr (Or.inr hcc)
        · refine ⟨closed_set_mono _ _ _ hI.hcell.1, ?_⟩
          rw [getD_set_ne _ _ _ _ _ (fun he => hkcne he.symm)]
          exact hI.hcell.2
      · exact getD_set_eq_of_lt _ _ _ _ hidxc ▸ rfl
      · intro i hi
        exact closed_set_mono _ _ _ hi
      · intro c hc
        exact List.mem_append.mpr (Or.inl hc)
      · have hcount := count_false_set_true closed _ hidxc hclf
        dsimp only
        rw [List.length_append, List.length_singleton]
        omega
    · rw [if_neg hnh]
      have hge : cellH ≤ hs.getD (p.2 * w + p.1) 0 := not_lt.mp hnh
      refine ⟨?_, ?_, ?_, ?_, ?_⟩
      · refine ⟨?_, ?_, ?_, ?_, ?_, ?_, ?_⟩
        · rw [List.length_set]; exact hI.hclen
        · exact hI.hhlen
        · intro c hc
          rcases List.mem_append.mp hc with hco | hcn
          · obtain ⟨hcw2, hch2, hto, hhv⟩ := hI.hopen c hco
            exact ⟨hcw2, hch2, closed_set_mono _ _ _ hto, hhv⟩
          · rw [List.mem_singleton.mp hcn]
            exact ⟨hpw, hph, getD_set_eq_of_lt _ _ _ _ hidxc ▸ rfl, rfl⟩
        · intro x2 hx2 z2 hz2 hcl2
          by_cases hi2 : z2 * w + x2 = p.2 * w + p.1
          · obtain ⟨hxe, hze⟩ := grid_idx_inj w x2 z2 p.1 p.2 hx2 hpw hi2
            subst hxe
            subst hze
            right
            refine ⟨(cx, cz), neighbors8_symm cx cz w h hcx hcz p hpmem, ?_, ?_⟩
            · exact closed_set_mono _ _ _ hI.hcell.1
            · rw [hI.hcell.2]
              exact hge
          · have hcl2o : closed.getD (z2 * w + x2) true = true := by
              rw [getD_set_ne _ _ _ _ _ (fun he => hi2 he.symm)] at hcl2
              exact hcl2
            rcases hI.hlocal x2 hx2 z2 hz2 hcl2o with hbord | ⟨q, hq, hqc, hqle⟩
            · exact Or.inl hbord
            · exact Or.inr ⟨q, hq, closed_set_mono _ _ _ hqc, hqle⟩
        · intro x2 hx2 z2 hz2 hbord
          exact closed_set_mono _ _ _ (hI.hborder x2 hx2 z2 hz2 hbord)
        · intro x2 hx2 z2 hz2 hcl2
          by_cases hi2 : z2 * w + x2 = p.2 * w + p.1
          · obtain ⟨hxe, hze⟩ := grid_idx_inj w x2 z2 p.1 p.2 hx2 hpw hi2
            left
            exact ⟨⟨p.1, p.2, hs.getD (p.2 * w + p.1) 0⟩,
              List.mem_append.mpr (Or.inr (List.mem_singleton.mpr rfl)),
              hxe.symm, hze.symm⟩
          · have hcl2o : closed.getD (z2 * w + x2) true = true := by
              rw [getD_set_ne _ _ _ _ _ (fun he => hi2 he.symm)] at hcl2
              exact hcl2
            rcases hI.hfrontier x2 hx2 z2 hz2 hcl2o with ⟨c, hc, hce⟩ | hall | hcc
            · exact Or.inl ⟨c, List.mem_append.mpr (Or.inl hc), hce⟩
            · exact Or.inr (Or.inl fun q hq => closed_set_mono _ _ _ (hall q hq))
            · exact Or.inr (Or.inr hcc)
        · exact ⟨closed_set_mono _ _ _ hI.hcell.1, hI.hcell.2⟩
      · exact getD_set_eq_of_lt _ _ _ _ hidxc ▸ rfl
      · intro i hi
        exact closed_set_mono _ _ _ hi
      · intro c hc
        exact List.mem_append.mpr (Or.inl hc)
      · have hcount := count_false_set_true closed _ hidxc hclf
        dsimp only
        rw [List.length_append, List.length_singleton]
        omega

theorem processNbrs_spec (w h cx cz : Nat) (hcx : cx < w) (hcz : cz < h)
    (cellH : ℚ) :
    ∀ (nbrs : List (Nat × Nat)) (st : List FCell × List Bool × List ℚ),
    (∀ p ∈ nbrs, p ∈ neighbors8 cx cz w h) →
    PInv w h cx cz cellH st →
    PInv w h cx cz cellH (processNbrs w cellH nbrs st) ∧
    (∀ p ∈ nbrs,
      (processNbrs w cellH nbrs st).2.1.getD (p.2 * w + p.1) true = true) ∧
    (∀ i, st.2.1.getD i true = true →
      (processNbrs w cellH nbrs st).2.1.getD i true = true) ∧
    (∀ c ∈ st.1, c ∈ (processNbrs w cellH nbrs st).1) ∧
    (processNbrs w cellH nbrs st).1.length +
      (processNbrs w cellH nbrs st).2.1.count false
      = st.1.length + st.2.1.count false := by
  intro nbrs
  induction nbrs with
  | nil =>
    intro st _ hI
    exact ⟨hI, fun p hp => absurd hp (List.not_mem_nil p), fun i hi => hi,
      fun c hc => hc, rfl⟩
  | cons p nbrs ih =>
    intro st hmem hI
    obtain ⟨opn, closed, hs⟩ := st
    have hone := processNbrs_one w h cx cz hcx hcz cellH opn closed hs p
      (hmem p (List.mem_cons_self p nbrs)) hI
    have hsplit : processNbrs w cellH (p :: nbrs) (opn, closed, hs)
        = processNbrs w cellH nbrs (processNbrs w cellH [p] (opn, closed, hs)) := by
      simp only [processNbrs, List.foldl_cons, List.foldl_nil]
    rw [hsplit]
    have hrest := ih (processNbrs w cellH [p] (opn, closed, hs))
      (fun q hq => hmem q (List.mem_cons_of_mem p hq)) hone.1
    refine ⟨hrest.1, ?_, ?_, ?_, ?_⟩
    · intro q hq
      rcases List.mem_cons.mp hq with rfl | hq2
      · exact hrest.2.2.1 _ hone.2.1
      · exact hrest.2.1 q hq2
    · intro i hi
      exact hrest.2.2.1 i (hone.2.2.1 i hi)
    · intro c hc
      exact hrest.2.2.2.1 c (hone.2.2.2.1 c hc)
    · rw [hrest.2.2.2.2, hone.2.2.2.2]

theorem fillInv_all_closed (w h : Nat) (closed : List Bool) (hs : List ℚ)
    (hInv : FillInv w h [] closed hs) :
    ∀ z, z < h → ∀ x, x < w → closed.getD (z * w + x) true = true := by
  intro z
  induction z with
  | zero =>
    intro hz x hx
    exact hInv.hborder x hx 0 hz (Or.inr (Or.inr (Or.inl rfl)))
  | succ z ih =>
    intro hz x hx
    have hzlt : z < h := Nat.lt_of_succ_lt hz
    have hcz := ih hzlt x hx
    rcases hInv.hfrontier x hx z hzlt hcz with ⟨c, hc, _⟩ | hall
    · exact absurd hc (List.not_mem_nil c)
    · have hmem : ((x : Nat), z + 1) ∈ neighbors8 x z w h := by
        apply (mem_neighbors8_iff x z w h _).mpr
        refine ⟨2, by omega, ?_, ?_⟩
        · unfold d8InBounds
          simp only [dx8, dz8]
          refine ⟨?_, ?_, ?_, ?_⟩ <;> omega
        · simp only [dx8, dz8]
          refine Prod.ext ?_ ?_ <;> simp
      have hres := hall (x, z + 1) hmem
      exact hres

theorem fillLoop_spec (w h : Nat) :
    ∀ (fuel : Nat) (opn : List FCell) (closed : List Bool) (hs : List ℚ),
    FillInv w h opn closed hs →
    opn.length + closed.count false < fuel →
    ∀ x z, 0 < x → x + 1 < w → 0 < z → z + 1 < h →
      ∃ p ∈ neighbors8 x z w h,
        (fillLoop w h fuel opn closed hs).getD (p.2 * w + p.1) 0 ≤
          (fillLoop w h fuel opn closed hs).getD (z * w + x) 0 := by
  intro fuel
  induction fuel with
  | zero =>
    intro opn closed hs _ hm
    omega
  | succ fuel ih =>
    intro opn closed hs hInv hm x z hx1 hx2 hz1 hz2
    rw [fillLoop]
    cases hpop : popMin opn with
    | none =>
      have hopn := (popMin_eq_none opn).mp hpop
      subst hopn
      dsimp only
      have hx : x < w := by omega
      have hz : z < h := by omega
      have hcl := fillInv_all_closed w h closed hs hInv z hz x hx
      rcases hInv.hlocal x hx z hz hcl with hbord | ⟨p, hp, _, hle⟩
      · exfalso
        unfold isBorder at hbord
        omega
      · exact ⟨p, hp, hle⟩
    | some pr =>
      obtain ⟨cell, rest⟩ := pr
      dsimp only
      obtain ⟨hperm, hmin⟩ := popMin_spec opn cell rest hpop
      have hcellmem : cell ∈ opn := hperm.mem_iff.mpr (List.mem_cons_self _ _)
      obtain ⟨hcx, hcz, hcclosed, hcval⟩ := hInv.hopen cell hcellmem
      have hPI : PInv w h cell.x cell.z cell.hgt (rest, closed, hs) := by
        refine ⟨hInv.hclen, hInv.hhlen, ?_, hInv.hlocal, hInv.hborder, ?_,
          hcclosed, hcval.symm⟩
        · intro c hc
          exact hInv.hopen c (hperm.mem_iff.mpr (List.mem_cons_of_mem _ hc))
        · intro x2 hx2 z2 hz2 hcl2
          rcases hInv.hfrontier x2 hx2 z2 hz2 hcl2 with ⟨c, hc, hce1, hce2⟩ | hall
          · have hc2 : c ∈ cell :: rest := hperm.mem_iff.mp hc
            rcases List.mem_cons.mp hc2 with rfl | hcr
            · exact Or.inr (Or.inr ⟨hce1.symm, hce2.symm⟩)
            · exact Or.inl ⟨c, hcr, hce1, hce2⟩
          · exact Or.inr (Or.inl hall)
      have hproc := processNbrs_spec w h cell.x cell.z hcx hcz cell.hgt
        (neighbors8 cell.x cell.z w h) (rest, closed, hs) (fun p hp => hp) hPI
      have hInv2 : FillInv w h
          (processNbrs w cell.hgt (neighbors8 cell.x cell.z w h) (rest, closed, hs)).1
          (processNbrs w cell.hgt (neighbors8 cell.x cell.z w h) (rest, closed, hs)).2.1
          (processNbrs w cell.hgt (neighbors8 cell.x cell.z w h) (rest, closed, hs)).2.2 := by
        obtain ⟨hP2, hallnbrs, hmono, hopenmono, hcnt⟩ := hproc
        refine ⟨hP2.hclen, hP2.hhlen, hP2.hopen, hP2.hlocal, hP2.hborder, ?_⟩
        intro x2 hx2 z2 hz2 hcl2
        rcases hP2.hfrontier x2 hx2 z2 hz2 hcl2 with hw1 | hall | ⟨rfl, rfl⟩
        · exact Or.inl hw1
        · exact Or.inr hall
        · exact Or.inr hallnbrs
      have hlen_rest : opn.length = rest.length + 1 := by
        have hpl := hperm.length_eq
        simpa using hpl
      have hm2 :
          (processNbrs w cell.hgt (neighbors8 cell.x cell.z w h) (rest, closed, hs)).1.length +
          (processNbrs w cell.hgt (neighbors8 cell.x cell.z w h) (rest, closed, hs)).2.1.count false
          < fuel := by
        have hc := hproc.2.2.2.2
        dsimp only at hc
        omega
      exact ih _ _ _ hInv2 hm2 x z hx1 hx2 hz1 hz2

theorem getD_replicate_bool (n m : Nat) (a d : Bool) (h : m < n) :
    (List.replicate n a).getD m d = a := by
  simp [List.getD_eq_getElem?_getD, List.getElem?_replicate, h]


theorem seedStep1 (hs : List ℚ) (w h : Nat) (prev : List FCell × List Bool) (x : Nat) :
    (fun (acc : List FCell × List Bool) x =>
      let i1 := x
      let acc2 := (acc.1 ++ [(⟨x, 0, hs.getD i1 0⟩ : FCell)], acc.2.set i1 true)
      let z := h - 1
      let i2 := z * w + x
      (acc2.1 ++ [(⟨x, z, hs.getD i2 0⟩ : FCell)], acc2.2.set i2 true)) prev x
    = ((prev.1 ++ [⟨x, 0, hs.getD x 0⟩]) ++ [⟨x, h - 1, hs.getD ((h - 1) * w + x) 0⟩],
        (prev.2.set x true).set ((h - 1) * w + x) true) := rfl

theorem seedFold1_spec (hs : List ℚ) (w h : Nat) (hh : 1 ≤ h) :
    ∀ k, k ≤ w → ∀ acc : List FCell × List Bool,
    acc = (List.range k).foldl
      (fun (acc : List FCell × List Bool) x =>
        let i1 := x
        let acc2 := (acc.1 ++ [(⟨x, 0, hs.getD i1 0⟩ : FCell)], acc.2.set i1 true)
        let z := h - 1
        let i2 := z * w + x
        (acc2.1 ++ [(⟨x, z, hs.getD i2 0⟩ : FCell)], acc2.2.set i2 true))
      (([] : List FCell), List.replicate (w * h) false) →
    acc.2.length = w * h ∧
    acc.1.length = 2 * k ∧
    (∀ c ∈ acc.1, ∃ x, x < k ∧
      (c = ⟨x, 0, hs.getD x 0⟩ ∨ c = ⟨x, h - 1, hs.getD ((h - 1) * w + x) 0⟩)) ∧
    (∀ x, x < k → (⟨x, 0, hs.getD x 0⟩ : FCell) ∈ acc.1 ∧
      (⟨x, h - 1, hs.getD ((h - 1) * w + x) 0⟩ : FCell) ∈ acc.1) ∧
    (∀ i, i < w * h → (acc.2.getD i true = true ↔
      ∃ x, x < k ∧ (i = x ∨ i = (h - 1) * w + x))) := by
  intro k
  induction k with
  | zero =>
    intro _ acc hacc
    subst hacc
    simp only [List.range_zero, List.foldl_nil]
    refine ⟨List.length_replicate _ _, rfl, ?_, ?_, ?_⟩
    · intro c hc
      exact absurd hc (List.not_mem_nil c)
    · intro x hx
      omega
    · intro i hi
      rw [getD_replicate_bool _ _ _ _ hi]
      constructor
      · intro hcontra
        exact absurd hcontra (by simp)
      · rintro ⟨x, hx, -⟩
        omega
  | succ k ih =>
    intro hk acc hacc
    rw [List.range_succ, List.foldl_append, List.foldl_cons, List.foldl_nil] at hacc
    obtain ⟨h1, h2, h3, h4, h5⟩ := ih (Nat.le_of_succ_le hk) _ rfl
    set prev := (List.range k).foldl
      (fun (acc : List FCell × List Bool) x =>
        let i1 := x
        let acc2 := (acc.1 ++ [(⟨x, 0, hs.getD i1 0⟩ : FCell)], acc.2.set i1 true)
        let z := h - 1
        let i2 := z * w + x
        (acc2.1 ++ [(⟨x, z, hs.getD i2 0⟩ : FCell)], acc2.2.set i2 true))
      (([] : List FCell), List.replicate (w * h) false) with hprevdef
    replace hacc : acc =
      ((prev.1 ++ [(⟨k, 0, hs.getD k 0⟩ : FCell)]) ++
        [(⟨k, h - 1, hs.getD ((h - 1) * w + k) 0⟩ : FCell)],
        (prev.2.set k true).set ((h - 1) * w + k) true) := hacc
    subst hacc
    have hklt : k < w := hk
    have hidx2 : (h - 1) * w + k < w * h := by
      have hg := grid_index_lt w k (h - 1) h hklt (by omega)
      calc (h - 1) * w + k < h * w := hg
        _ = w * h := Nat.mul_comm h w
    have hkwh : k < w * h := by
      calc k < w := hklt
        _ = w * 1 := (Nat.mul_one w).symm
        _ ≤ w * h := Nat.mul_le_mul_left w hh
    refine ⟨?_, ?_, ?_, ?_, ?_⟩
    · show (((prev.2.set k true).set ((h - 1) * w + k) true : List Bool)).length = w * h
      rw [List.length_set, List.length_set]
      exact h1
    · show ((prev.1 ++ [(⟨k, 0, hs.getD k 0⟩ : FCell)]) ++
        [(⟨k, h - 1, hs.getD ((h - 1) * w + k) 0⟩ : FCell)]).length = 2 * (k + 1)
      rw [List.length_append, List.length_append, h2]
      rfl
    · intro c hc
      rcases List.mem_append.mp hc with hc1 | hc2
      · rcases List.mem_append.mp hc1 with hc3 | hc4
        · obtain ⟨x, hx, hcase⟩ := h3 c hc3
          exact ⟨x, by omega, hcase⟩
        · exact ⟨k, by omega, Or.inl (List.mem_singleton.mp hc4)⟩
      · exact ⟨k, by omega, Or.inr (List.mem_singleton.mp hc2)⟩
    · intro x hx
      by_cases hxk : x < k
      · obtain ⟨hm1, hm2⟩ := h4 x hxk
        exact ⟨List.mem_append_left _ (List.mem_append_left _ hm1),
          List.mem_append_left _ (List.mem_append_left _ hm2)⟩
      · have hxe : x = k := by omega
        subst hxe
        refine ⟨List.mem_append_left _ (List.mem_append_right _ ?_),
          List.mem_append_right _ ?_⟩
        · exact List.mem_singleton.mpr rfl
        · exact List.mem_singleton.mpr rfl
    · intro i hi
      by_cases he2 : i = (h - 1) * w + k
      · subst he2
        rw [getD_set_eq_of_lt]
        · exact iff_of_true rfl ⟨k, by omega, Or.inr rfl⟩
        · rw [List.length_set, h1]
          exact hidx2
      · rw [getD_set_ne _ _ _ _ _ (fun he => he2 he.symm)]
        by_cases he1 : i = k
        · subst he1
          rw [getD_set_eq_of_lt]
          · exact iff_of_true rfl ⟨i, by omega, Or.inl rfl⟩
          · rw [h1]
            exact hkwh
        · rw [getD_set_ne _ _ _ _ _ (fun he => he1 he.symm)]
          rw [h5 i hi]
          constructor
          · rintro ⟨x, hx, hcase⟩
            exact ⟨x, by omega, hcase⟩
          · rintro ⟨x, hx, hcase⟩
            refine ⟨x, ?_, hcase⟩
            rcases hcase with hcase | hcase
            · omega
            · by_cases hxk : x = k
              · subst hxk
                exact absurd hcase he2
              · omega

theorem seedFold2_spec (hs : List ℚ) (w h : Nat) (hw : 2 ≤ w) (hh : 2 ≤ h)
    (acc0 : List FCell × List Bool)
    (A1 : acc0.2.length = w * h)
    (A2 : acc0.1.length = 2 * w)
    (A3 : ∀ c ∈ acc0.1, ∃ x, x < w ∧
      (c = ⟨x, 0, hs.getD x 0⟩ ∨ c = ⟨x, h - 1, hs.getD ((h - 1) * w + x) 0⟩))
    (A4 : ∀ x, x < w → (⟨x, 0, hs.getD x 0⟩ : FCell) ∈ acc0.1 ∧
      (⟨x, h - 1, hs.getD ((h - 1) * w + x) 0⟩ : FCell) ∈ acc0.1)
    (A5 : ∀ i, i < w * h → (acc0.2.getD i true = true ↔
      ∃ x, x < w ∧ (i = x ∨ i = (h - 1) * w + x))) :
    ∀ k, k ≤ h - 2 → ∀ acc : List FCell × List Bool,
    acc = (List.range' 1 k).foldl
      (fun (acc : List FCell × List Bool) z =>
        let i1 := z * w
        let acc2 := (acc.1 ++ [(⟨0, z, hs.getD i1 0⟩ : FCell)], acc.2.set i1 true)
        let x := w - 1
        let i2 := z * w + x
        (acc2.1 ++ [(⟨x, z, hs.getD i2 0⟩ : FCell)], acc2.2.set i2 true))
      acc0 →
    acc.2.length = w * h ∧
    acc.1.length = 2 * w + 2 * k ∧
    (∀ c ∈ acc.1,
      (∃ x, x < w ∧
        (c = ⟨x, 0, hs.getD x 0⟩ ∨ c = ⟨x, h - 1, hs.getD ((h - 1) * w + x) 0⟩)) ∨
      (∃ z, 1 ≤ z ∧ z < 1 + k ∧
        (c = ⟨0, z, hs.getD (z * w) 0⟩ ∨ c = ⟨w - 1, z, hs.getD (z * w + (w - 1)) 0⟩))) ∧
    ((∀ x, x < w → (⟨x, 0, hs.getD x 0⟩ : FCell) ∈ acc.1 ∧
        (⟨x, h - 1, hs.getD ((h - 1) * w + x) 0⟩ : FCell) ∈ acc.1) ∧
      (∀ z, 1 ≤ z → z < 1 + k → (⟨0, z, hs.getD (z * w) 0⟩ : FCell) ∈ acc.1 ∧
        (⟨w - 1, z, hs.getD (z * w + (w - 1)) 0⟩ : FCell) ∈ acc.1)) ∧
    (∀ i, i < w * h → (acc.2.getD i true = true ↔
      (∃ x, x < w ∧ (i = x ∨ i = (h - 1) * w + x)) ∨
      (∃ z, 1 ≤ z ∧ z < 1 + k ∧ (i = z * w ∨ i = z * w + (w - 1))))) := by
  intro k
  induction k with
  | zero =>
    intro _ acc hacc
    replace hacc : acc = acc0 := hacc
    subst hacc
    refine ⟨A1, ?_, ?_, ⟨A4, ?_⟩, ?_⟩
    · omega
    · intro c hc
      exact Or.inl (A3 c hc)
    · intro z hz1 hz2
      omega
    · intro i hi
      rw [A5 i hi]
      constructor
      · intro hcase
        exact Or.inl hcase
      · rintro (hcase | ⟨z, hz1, hz2, -⟩)
        · exact hcase
        · omega
  | succ k ih =>
    intro hk acc hacc
    rw [List.range'_concat 1 k, List.foldl_append, List.foldl_cons, List.foldl_nil,
      show 1 + 1 * k = k + 1 from by omega] at hacc
    obtain ⟨h1, h2, h3, ⟨h4a, h4b⟩, h5⟩ := ih (by omega) _ rfl
    set prev := (List.range' 1 k).foldl
      (fun (acc : List FCell × List Bool) z =>
        let i1 := z * w
        let acc2 := (acc.1 ++ [(⟨0, z, hs.getD i1 0⟩ : FCell)], acc.2.set i1 true)
        let x := w - 1
        let i2 := z * w + x
        (acc2.1 ++ [(⟨x, z, hs.getD i2 0⟩ : FCell)], acc2.2.set i2 true))
      acc0 with hprevdef
    replace hacc : acc =
      ((prev.1 ++ [(⟨0, k + 1, hs.getD ((k + 1) * w) 0⟩ : FCell)]) ++
        [(⟨w - 1, k + 1, hs.getD ((k + 1) * w + (w - 1)) 0⟩ : FCell)],
        (prev.2.set ((k + 1) * w) true).set ((k + 1) * w + (w - 1)) true) := hacc
    subst hacc
    have hzlt : k + 1 < h := by omega
    have hidx1 : (k + 1) * w < w * h := by
      have hg := grid_index_lt w 0 (k + 1) h (by omega) hzlt
      calc (k + 1) * w = (k + 1) * w + 0 := (Nat.add_zero _).symm
        _ < h * w := hg
        _ = w * h := Nat.mul_comm h w
    have hidx2 : (k + 1) * w + (w - 1) < w * h := by
      have hg := grid_index_lt w (w - 1) (k + 1) h (by omega) hzlt
      calc (k + 1) * w + (w - 1) < h * w := hg
        _ = w * h := Nat.mul_comm h w
    refine ⟨?_, ?_, ?_, ⟨?_, ?_⟩, ?_⟩
    · show (((prev.2.set ((k + 1) * w) true).set ((k + 1) * w + (w - 1)) true :
        List Bool)).length = w * h
      rw [List.length_set, List.length_set]
      exact h1
    · show ((prev.1 ++ [(⟨0, k + 1, hs.getD ((k + 1) * w) 0⟩ : FCell)]) ++
        [(⟨w - 1, k + 1, hs.getD ((k + 1) * w + (w - 1)) 0⟩ : FCell)]).length
        = 2 * w + 2 * (k + 1)
      rw [List.length_append, List.length_append, h2]
      simp only [List.length_singleton]
      omega
    · intro c hc
      rcases List.mem_append.mp hc with hc1 | hc2
      · rcases List.mem_append.mp hc1 with hc3 | hc4
        · rcases h3 c hc3 with hcase | ⟨z, hz1, hz2, hcase⟩
          · exact Or.inl hcase
          · exact Or.inr ⟨z, hz1, by omega, hcase⟩
        · exact Or.inr ⟨k + 1, by omega, by omega,
            Or.inl (List.mem_singleton.mp hc4)⟩
      · exact Or.inr ⟨k + 1, by omega, by omega,
          Or.inr (List.mem_singleton.mp hc2)⟩
    · intro x hx
      obtain ⟨hm1, hm2⟩ := h4a x hx
      exact ⟨List.mem_append_left _ (List.mem_append_left _ hm1),
        List.mem_append_left _ (List.mem_append_left _ hm2)⟩
    · intro z hz1 hz2
      by_cases hzk : z < 1 + k
      · obtain ⟨hm1, hm2⟩ := h4b z hz1 hzk
        exact ⟨List.mem_append_left _ (List.mem_append_left _ hm1),
          List.mem_append_left _ (List.mem_append_left _ hm2)⟩
      · have hze : z = k + 1 := by omega
        subst hze
        refine ⟨List.mem_append_left _ (List.mem_append_right _ ?_),
          List.mem_append_right _ ?_⟩
        · exact List.mem_singleton.mpr rfl
        · exact List.mem_singleton.mpr rfl
    · intro i hi
      by_cases he2 : i = (k + 1) * w + (w - 1)
      · subst he2
        rw [getD_set_eq_of_lt]
        · exact iff_of_true rfl (Or.inr ⟨k + 1, by omega, by omega, Or.inr rfl⟩)
        · rw [List.length_set, h1]
          exact hidx2
      · rw [getD_set_ne _ _ _ _ _ (fun he => he2 he.symm)]
        by_cases he1 : i = (k + 1) * w
        · subst he1
          rw [getD_set_eq_of_lt]
          · exact iff_of_true rfl (Or.inr ⟨k + 1, by omega, by omega, Or.inl rfl⟩)
          · rw [h1]
            exact hidx1
        · rw [getD_set_ne _ _ _ _ _ (fun he => he1 he.symm)]
          rw [h5 i hi]
          constructor
          · rintro (hcase | ⟨z, hz1, hz2, hcase⟩)
            · exact Or.inl hcase
            · exact Or.inr ⟨z, hz1, by omega, hcase⟩
          · rintro (hcase | ⟨z, hz1, hz2, hcase⟩)
            · exact Or.inl hcase
            · refine Or.inr ⟨z, hz1, ?_, hcase⟩
              by_cases hzk : z = k + 1
              · subst hzk
                rcases hcase with hcase | hcase
                · exact absurd hcase he1
                · exact absurd hcase he2
              · omega

theorem seedCells_inv (hs : List ℚ) (w h : Nat) (hw : 2 ≤ w) (hh : 2 ≤ h)
    (hlen : hs.length = w * h) :
    FillInv w h (seedCells hs w h).1 (seedCells hs w h).2 hs ∧
    (seedCells hs w h).1.length + (seedCells hs w h).2.count false
      < 2 * w + 2 * h + w * h + 1 := by
  obtain ⟨s1a, s1b, s1c, s1d, s1e⟩ :=
    seedFold1_spec hs w h (by omega) w le_rfl _ rfl
  obtain ⟨B1, B2, B3, ⟨B4a, B4b⟩, B5⟩ :=
    seedFold2_spec hs w h hw hh _ s1a s1b s1c s1d s1e (h - 2) le_rfl _ rfl
  have hB1 : (seedCells hs w h).2.length = w * h := B1
  have hB2 : (seedCells hs w h).1.length = 2 * w + 2 * (h - 2) := B2
  have hB5 : ∀ i, i < w * h → ((seedCells hs w h).2.getD i true = true ↔
      (∃ x, x < w ∧ (i = x ∨ i = (h - 1) * w + x)) ∨
      (∃ z, 1 ≤ z ∧ z < 1 + (h - 2) ∧ (i = z * w ∨ i = z * w + (w - 1)))) := B5
  have hwh : ∀ x2 z2, x2 < w → z2 < h → z2 * w + x2 < w * h := by
    intro x2 z2 hx2 hz2
    have hg := grid_index_lt w x2 z2 h hx2 hz2
    calc z2 * w + x2 < h * w := hg
      _ = w * h := Nat.mul_comm h w
  refine ⟨⟨hB1, hlen, ?_, ?_, ?_, ?_⟩, ?_⟩
  · -- hopen
    intro c hc
    rcases B3 c hc with ⟨x, hx, hcase | hcase⟩ | ⟨z, hz1, hz2, hcase | hcase⟩
    · subst hcase
      dsimp only
      refine ⟨hx, by omega, ?_, ?_⟩
      · have hxwh : x < w * h := by
          calc x < w := hx
            _ = w * 1 := (Nat.mul_one w).symm
            _ ≤ w * h := Nat.mul_le_mul_left w (by omega)
        exact (hB5 (0 * w + x) (by omega)).mpr (Or.inl ⟨x, hx, Or.inl (by omega)⟩)
      · show hs.getD x 0 = hs.getD (0 * w + x) 0
        rw [show 0 * w + x = x from by omega]
    · subst hcase
      dsimp only
      refine ⟨hx, by omega, ?_, rfl⟩
      exact (hB5 ((h - 1) * w + x) (hwh x (h - 1) hx (by omega))).mpr
        (Or.inl ⟨x, hx, Or.inr rfl⟩)
    · subst hcase
      dsimp only
      refine ⟨by omega, by omega, ?_, ?_⟩
      · exact (hB5 (z * w + 0) (hwh 0 z (by omega) (by omega))).mpr
          (Or.inr ⟨z, hz1, hz2, Or.inl (by omega)⟩)
      · show hs.getD (z * w) 0 = hs.getD (z * w + 0) 0
        rw [show z * w + 0 = z * w from by omega]
    · subst hcase
      dsimp only
      refine ⟨by omega, by omega, ?_, rfl⟩
      exact (hB5 (z * w + (w - 1)) (hwh (w - 1) z (by omega) (by omega))).mpr
        (Or.inr ⟨z, hz1, hz2, Or.inr rfl⟩)
  · -- hlocal: every closed cell is a border cell
    intro x2 hx2 z2 hz2 hcl
    rcases (hB5 _ (hwh x2 z2 hx2 hz2)).mp hcl with
      ⟨x, hx, he | he⟩ | ⟨z, hz1, hz2', he | he⟩
    · obtain ⟨-, hze⟩ := grid_idx_inj w x2 z2 x 0 hx2 hx (by omega)
      exact Or.inl (Or.inr (Or.inr (Or.inl hze)))
    · obtain ⟨-, hze⟩ := grid_idx_inj w x2 z2 x (h - 1) hx2 hx he
      exact Or.inl (Or.inr (Or.inr (Or.inr hze)))
    · obtain ⟨hxe, -⟩ := grid_idx_inj w x2 z2 0 z hx2 (by omega) (by omega)
      exact Or.inl (Or.inl hxe)
    · obtain ⟨hxe, -⟩ := grid_idx_inj w x2 z2 (w - 1) z hx2 (by omega) he
      exact Or.inl (Or.inr (Or.inl hxe))
  · -- hborder
    intro x2 hx2 z2 hz2 hb
    have hi := hwh x2 z2 hx2 hz2
    by_cases hz0 : z2 = 0
    · subst hz0
      exact (hB5 _ hi).mpr (Or.inl ⟨x2, hx2, Or.inl (by omega)⟩)
    · by_cases hzh : z2 = h - 1
      · subst hzh
        exact (hB5 _ hi).mpr (Or.inl ⟨x2, hx2, Or.inr rfl⟩)
      · rcases hb with hb | hb | hb | hb
        · subst hb
          exact (hB5 _ hi).mpr
            (Or.inr ⟨z2, by omega, by omega, Or.inl (by omega)⟩)
        · subst hb
          exact (hB5 _ hi).mpr
            (Or.inr ⟨z2, by omega, by omega, Or.inr rfl⟩)
        · exact absurd hb hz0
        · exact absurd hb hzh
  · -- hfrontier: every closed cell still waits in the queue
    intro x2 hx2 z2 hz2 hcl
    rcases (hB5 _ (hwh x2 z2 hx2 hz2)).mp hcl with
      ⟨x, hx, he | he⟩ | ⟨z, hz1, hz2', he | he⟩
    · obtain ⟨hxe, hze⟩ := grid_idx_inj w x2 z2 x 0 hx2 hx (by omega)
      exact Or.inl ⟨⟨x, 0, hs.getD x 0⟩, (B4a x hx).1, hxe.symm, hze.symm⟩
    · obtain ⟨hxe, hze⟩ := grid_idx_inj w x2 z2 x (h - 1) hx2 hx he
      exact Or.inl ⟨⟨x, h - 1, hs.getD ((h - 1) * w + x) 0⟩, (B4a x hx).2,
        hxe.symm, hze.symm⟩
    · obtain ⟨hxe, hze⟩ := grid_idx_inj w x2 z2 0 z hx2 (by omega) (by omega)
      exact Or.inl ⟨⟨0, z, hs.getD (z * w) 0⟩, (B4b z hz1 hz2').1,
        hxe.symm, hze.symm⟩
    · obtain ⟨hxe, hze⟩ := grid_idx_inj w x2 z2 (w - 1) z hx2 (by omega) he
      exact Or.inl ⟨⟨w - 1, z, hs.getD (z * w + (w - 1)) 0⟩, (B4b z hz1 hz2').2,
        hxe.symm, hze.symm⟩
  · -- the seeded measure is below the fuel
    have hcount : (seedCells hs w h).2.count false ≤ w * h := by
      calc (seedCells hs w h).2.count false ≤ (seedCells hs w h).2.length :=
        List.count_le_length _ _
        _ = w * h := hB1
    omega

/-- C2: for every finite height buffer of the given width and height, after
fill_depressions returns, no interior cell (a cell not on the grid border)
has all eight of its 8-connected neighbors strictly higher than itself: some
8-neighbor of every interior cell ends up no higher than the cell. -/
theorem fill_depressions_no_local_min (hs : List ℚ) (w h : Nat)
    (hlen : hs.length = w * h) (x z : Nat)
    (hx1 : 0 < x) (hx2 : x + 1 < w) (hz1 : 0 < z) (hz2 : z + 1 < h) :
    ∃ p ∈ neighbors8 x z w h,
      (fillDepressions hs w h).getD (p.2 * w + p.1) 0 ≤
        (fillDepressions hs w h).getD (z * w + x) 0 := by
  obtain ⟨hInv, hmeas⟩ := seedCells_inv hs w h (by omega) (by omega) hlen
  exact fillLoop_spec w h (2 * w + 2 * h + w * h + 1) (seedCells hs w h).1
    (seedCells hs w h).2 hs hInv hmeas x z hx1 hx2 hz1 hz2

theorem fill_depressions_no_local_min_witness :
    ([(1 : ℚ), 1, 1, 1, 0, 1, 1, 1, 1] : List ℚ).length = 3 * 3 ∧
    ∃ p ∈ neighbors8 1 1 3 3,
      (fillDepressions [(1 : ℚ), 1, 1, 1, 0, 1, 1, 1, 1] 3 3).getD (p.2 * 3 + p.1) 0 ≤
        (fillDepressions [(1 : ℚ), 1, 1, 1, 0, 1, 1, 1, 1] 3 3).getD (1 * 3 + 1) 0 :=
  ⟨by decide, fill_depressions_no_local_min _ 3 3 (by decide) 1 1
    (by decide) (by decide) (by decide) (by decide)⟩

/-- C8: a SimulateHydrology call made while the water-source list is empty
returns the error "No water sources placed. Place water sources first." and
leaves the terrain state (chunks, river network, dirty set) exactly
unchanged; with at least one water source placed the call never fails on
this precondition but returns Ok. -/
theorem simulate_hydrology_requires_sources (erodeF : Nat → List ℚ → List ℚ)
    (steps : Nat) (enableLakes enableCapture : Bool) (t : TerrainQ) :
    (t.waterSources = [] →
      simulateHydrology erodeF steps enableLakes enableCapture t =
        (.error "No water sources placed. Place water sources first.", t)) ∧
    (t.waterSources ≠ [] →
      ∃ r, (simulateHydrology erodeF steps enableLakes enableCapture t).1 = .ok r) := by
  constructor
  · intro he
    unfold simulateHydrology
    rw [if_pos he]
  · intro hne
    unfold simulateHydrology
    rw [if_neg hne]
    exact ⟨_, rfl⟩

theorem simulate_hydrology_requires_sources_witness :
    (simulateHydrology (fun _ l => l) 1 true true
        ⟨⟨1, 1, 1, 1, 1, 1, 0, 0, .fantasy⟩, [], [], [], []⟩ =
      (.error "No water sources placed. Place water sources first.",
        ⟨⟨1, 1, 1, 1, 1, 1, 0, 0, .fantasy⟩, [], [], [], []⟩)) ∧
    ∃ r, (simulateHydrology (fun _ l => l) 1 true true
        ⟨⟨1, 1, 1, 1, 1, 1, 0, 0, .fantasy⟩, [], [], [], [⟨0, 0, 1, true⟩]⟩).1 = .ok r :=
  ⟨(simulate_hydrology_requires_sources (fun _ l => l) 1 true true
      ⟨⟨1, 1, 1, 1, 1, 1, 0, 0, .fantasy⟩, [], [], [], []⟩).1 rfl,
    (simulate_hydrology_requires_sources (fun _ l => l) 1 true true
      ⟨⟨1, 1, 1, 1, 1, 1, 0, 0, .fantasy⟩, [], [], [], [⟨0, 0, 1, true⟩]⟩).2
      (by decide)⟩
